import Mathlib

/-!
Verification development for the image-scraper storage and indexing core.

The Rust sources are shallowly embedded: bytes are `Nat`, byte strings are
`List Nat`, file-system trees are an explicit inductive type, machine-integer
conversions are spelled out with explicit bounds, and fallible operations
return `Option` or `Except`.
-/

namespace ImageScraper

/-! ### Byte-sequence lexicographic order

Model of the ordering on Rust byte slices (`[u8]::cmp`, and the component
ordering used by `PathBuf`/`OsStr` and by RocksDB keys): lexicographic on
bytes.
-/

def byteLt : List Nat → List Nat → Bool
  | [], [] => false
  | [], _ :: _ => true
  | _ :: _, [] => false
  | a :: as, b :: bs => decide (a < b) || (decide (a = b) && byteLt as bs)

theorem byteLt_nil_right : ∀ l, byteLt l [] = false
  | [] => rfl
  | _ :: _ => rfl

theorem byteLt_cons_iff (x y : Nat) (xs ys : List Nat) :
    byteLt (x :: xs) (y :: ys) = true ↔ x < y ∨ (x = y ∧ byteLt xs ys = true) := by
  simp [byteLt]

theorem byteLt_irrefl : ∀ l, byteLt l l = false
  | [] => rfl
  | a :: as => by simp [byteLt, byteLt_irrefl as]

theorem byteLt_asymm : ∀ a b, byteLt a b = true → byteLt b a = false
  | [], [], h => by simp [byteLt] at h
  | [], _ :: _, _ => byteLt_nil_right _
  | _ :: _, [], h => by simp [byteLt] at h
  | x :: xs, y :: ys, h => by
    rcases (byteLt_cons_iff x y xs ys).mp h with hlt | ⟨heq, hrec⟩
    · rw [← Bool.not_eq_true]
      intro hcontra
      rcases (byteLt_cons_iff y x ys xs).mp hcontra with h2 | ⟨h2, _⟩ <;> omega
    · have ih := byteLt_asymm xs ys hrec
      rw [← Bool.not_eq_true]
      intro hcontra
      rcases (byteLt_cons_iff y x ys xs).mp hcontra with h2 | ⟨_, h2⟩
      · omega
      · rw [ih] at h2; exact Bool.false_ne_true h2

theorem byteLt_trans : ∀ a b c, byteLt a b = true → byteLt b c = true → byteLt a c = true
  | _, [], _, h1, _ => by rw [byteLt_nil_right] at h1; simp at h1
  | [], _ :: _, [], _, h2 => by rw [byteLt_nil_right] at h2; simp at h2
  | _ :: _, _ :: _, [], _, h2 => by rw [byteLt_nil_right] at h2; simp at h2
  | [], _ :: _, _ :: _, _, _ => rfl
  | x :: xs, y :: ys, z :: zs, h1, h2 => by
    rcases (byteLt_cons_iff x y xs ys).mp h1 with hlt1 | ⟨heq1, hrec1⟩ <;>
      rcases (byteLt_cons_iff y z ys zs).mp h2 with hlt2 | ⟨heq2, hrec2⟩ <;>
      refine (byteLt_cons_iff x z xs zs).mpr ?_
    · exact Or.inl (by omega)
    · exact Or.inl (by omega)
    · exact Or.inl (by omega)
    · exact Or.inr ⟨by omega, byteLt_trans xs ys zs hrec1 hrec2⟩

theorem byteLt_total : ∀ a b : List Nat, a = b ∨ byteLt a b = true ∨ byteLt b a = true
  | [], [] => Or.inl rfl
  | [], _ :: _ => Or.inr (Or.inl rfl)
  | _ :: _, [] => Or.inr (Or.inr rfl)
  | x :: xs, y :: ys => by
    rcases Nat.lt_trichotomy x y with h | h | h
    · exact Or.inr (Or.inl ((byteLt_cons_iff x y xs ys).mpr (Or.inl h)))
    · rcases byteLt_total xs ys with h2 | h2 | h2
      · exact Or.inl (by rw [h, h2])
      · exact Or.inr (Or.inl ((byteLt_cons_iff x y xs ys).mpr (Or.inr ⟨h, h2⟩)))
      · exact Or.inr (Or.inr ((byteLt_cons_iff y x ys xs).mpr (Or.inr ⟨h.symm, h2⟩)))
    · exact Or.inr (Or.inr ((byteLt_cons_iff y x ys xs).mpr (Or.inl h)))

theorem byteLt_ne {a b : List Nat} (h : byteLt a b = true) : a ≠ b := by
  intro he; subst he; rw [byteLt_irrefl] at h; exact Bool.false_ne_true h

theorem byteLt_append_same : ∀ p a b : List Nat, byteLt (p ++ a) (p ++ b) = byteLt a b
  | [], _, _ => rfl
  | x :: p, a, b => by
    show byteLt (x :: (p ++ a)) (x :: (p ++ b)) = byteLt a b
    simp [byteLt, byteLt_append_same p a b]

theorem byteLt_append_right : ∀ p a : List Nat, byteLt (p ++ a) p = false
  | [], a => byteLt_nil_right a
  | x :: p, a => by
    show byteLt (x :: (p ++ a)) (x :: p) = false
    simp [byteLt, byteLt_append_right p a]

theorem byteLt_extend_of_eq_length :
    ∀ a b x y : List Nat, a.length = b.length → byteLt a b = true →
      byteLt (a ++ x) (b ++ y) = true
  | [], [], _, _, _, h => by simp [byteLt] at h
  | [], _ :: _, _, _, hl, _ => by simp at hl
  | _ :: _, [], _, _, hl, _ => by simp at hl
  | a :: as, b :: bs, x, y, hl, h => by
    rcases (byteLt_cons_iff a b as bs).mp h with hlt | ⟨heq, hrec⟩
    · exact (byteLt_cons_iff a b (as ++ x) (bs ++ y)).mpr (Or.inl hlt)
    · refine (byteLt_cons_iff a b (as ++ x) (bs ++ y)).mpr (Or.inr ⟨heq, ?_⟩)
      exact byteLt_extend_of_eq_length as bs x y (by simpa using hl) hrec

/-! ### UTF-8 validation

Model of `std::str::from_utf8` (external standard library): a byte sequence
is accepted exactly when it is well-formed UTF-8 (RFC 3629 ranges, no
surrogates, no overlong forms, maximum code point U+10FFFF).
-/

def isCont (b : Nat) : Bool := 0x80 ≤ b && b ≤ 0xBF

def valid3Second (b1 b2 : Nat) : Bool :=
  if b1 = 0xE0 then 0xA0 ≤ b2 && b2 ≤ 0xBF
  else if b1 = 0xED then 0x80 ≤ b2 && b2 ≤ 0x9F
  else isCont b2

def valid4Second (b1 b2 : Nat) : Bool :=
  if b1 = 0xF0 then 0x90 ≤ b2 && b2 ≤ 0xBF
  else if b1 = 0xF4 then 0x80 ≤ b2 && b2 ≤ 0x8F
  else isCont b2

def utf8Valid : List Nat → Bool
  | [] => true
  | b1 :: rest =>
    if b1 ≤ 0x7F then utf8Valid rest
    else if b1 < 0xC2 then false
    else if b1 ≤ 0xDF then
      match rest with
      | b2 :: rest2 => isCont b2 && utf8Valid rest2
      | [] => false
    else if b1 ≤ 0xEF then
      match rest with
      | b2 :: b3 :: rest3 => valid3Second b1 b2 && isCont b3 && utf8Valid rest3
      | _ => false
    else if b1 ≤ 0xF4 then
      match rest with
      | b2 :: b3 :: b4 :: rest4 =>
        valid4Second b1 b2 && isCont b3 && isCont b4 && utf8Valid rest4
      | _ => false
    else false

/-! ### Index database wire format (src/index/src/db.rs)

Keys are `url bytes ++ 0x00 ++ 4 big-endian timestamp bytes`; values are
`16 digest bytes ++ 1 content-type-code byte`.
-/

/-- Value of a big-endian byte sequence (`u32::from_be_bytes` on 4 bytes). -/
def be32val (l : List Nat) : Nat := l.foldl (fun acc b => acc * 256 + b) 0

/-- Big-endian 4-byte encoding of a `u32` value (`u32::to_be_bytes`). -/
def be32 (n : Nat) : List Nat :=
  [n / 16777216 % 256, n / 65536 % 256, n / 256 % 256, n % 256]

/-- Model of `u32::try_from(i64).unwrap_or(u32::MAX)` in `Key::to_bytes`:
an in-range value converts exactly, any out-of-range value (above
`u32::MAX` or negative) falls back to `u32::MAX`. -/
def satU32 (t : Int) : Nat :=
  if 0 ≤ t ∧ t < 4294967296 then t.toNat else 4294967295

/-- Modelled from the spec: the natural reading of clamping an epoch-second
count into the 32-bit unsigned range, for comparison with `satU32`. -/
def specClampU32 (t : Int) : Nat := (max 0 (min t 4294967295)).toNat

/-- Model of `Key::to_bytes`: url bytes, a single NUL separator, then the
saturated epoch seconds as 4 big-endian bytes. -/
def keyToBytes (url : List Nat) (t : Int) : List Nat :=
  url ++ 0 :: be32 (satU32 t)

/-- Model of `Key::from_bytes`: a key shorter than 5 bytes is rejected;
otherwise the last 4 bytes are the big-endian timestamp, everything before
the last 5 bytes must be valid UTF-8 and is the url, and the separator byte
itself is never inspected.  `DateTime::from_timestamp` never fails on a
`u32` epoch second (chrono covers far beyond year 2106), so that branch
cannot produce an error and the timestamp is modelled as the plain value. -/
def keyFromBytes (k : List Nat) : Option (List Nat × Nat) :=
  if k.length < 5 then none
  else
    let u := k.take (k.length - 5)
    if utf8Valid u then some (u, be32val (k.drop (k.length - 4))) else none

/-- Model of the bincode decoding of `Value` in `Database::lookup` /
`Database::iter` (big-endian, fixed-int config): 16 digest bytes, then one
content-type-code byte which must name a known `ImageType` (codes 0–17);
any trailing bytes beyond the 17 read are an `ExtraValueBytes` error and a
shorter input is a decode error, so decoding succeeds exactly on 17-byte
values with a known code. -/
def decodeValue (v : List Nat) : Option (List Nat × Nat) :=
  if v.length = 17 then
    match v[16]? with
    | some code => if code ≤ 17 then some (v.take 16, code) else none
    | none => none
  else none

/-- Model of `Value` encoding via bincode (big-endian fixed-int): the 16
digest bytes followed by the 1-byte content-type code. -/
def encodeValue (digest : List Nat) (code : Nat) : List Nat := digest ++ [code]

/-- The bytes written by `Database::add_failed`: the all-zero sentinel
digest and content-type code 0 (`ImageType::empty()`). -/
def failedValueBytes : List Nat := encodeValue (List.replicate 16 0) 0

/-- A decoded index row, as classified by `Database::lookup`: rows whose
image type is a known concrete type are successes (`Ok(Entry)`), rows with
image type code 0 (`None`) are failures (`Err(timestamp)`). -/
inductive Row where
  | success (ts : Nat) (digest : List Nat) (code : Nat)
  | failure (ts : Nat)
  deriving DecidableEq, Repr

def Row.tsOf : Row → Nat
  | .success ts _ _ => ts
  | .failure ts => ts

def Row.isSuccess : Row → Bool
  | .success _ _ _ => true
  | .failure _ => false

def Row.failureTs : Row → Option Nat
  | .success _ _ _ => none
  | .failure ts => some ts

/-- Classification of a decoded value at a given timestamp, following
`value.image_type.value()`: code 0 means `None` (a failure row), any other
known code is a concrete image type (a success row). -/
def rowOf (ts : Nat) (digest : List Nat) (code : Nat) : Row :=
  if code = 0 then .failure ts else .success ts digest code

theorem tsOf_rowOf (ts : Nat) (digest : List Nat) (code : Nat) :
    (rowOf ts digest code).tsOf = ts := by
  unfold rowOf; split <;> rfl

/-! ### The lookup scan (`Database::lookup`)

The RocksDB instance is modelled as an association list of
`(key bytes, value bytes)` pairs held in ascending key order (RocksDB's
iteration order); `IteratorMode::From(url, Forward)` seeks to the first key
not below the url bytes, which on a sorted list is `dropWhile`.
-/

/-- The relation used to re-sort collected rows:
`entries.sort_by_key(Reverse(timestamp))`, i.e. descending timestamps. -/
def rowGe (a b : Row) : Prop := b.tsOf ≤ a.tsOf

instance : DecidableRel rowGe := fun _ _ => Nat.decLe _ _

instance : IsTotal Row rowGe := ⟨fun a b => Nat.le_total b.tsOf a.tsOf⟩

instance : IsTrans Row rowGe := ⟨fun _ _ _ h1 h2 => Nat.le_trans h2 h1⟩

/-- The body of the scan loop in `Database::lookup`: decode each key (a
failure aborts the whole lookup with an error), stop at the first key whose
url component differs from the requested url, decode each value (a failure
or trailing bytes also abort), and collect the classified rows in scan
order. -/
def collectRows (url : List Nat) : List (List Nat × List Nat) → Option (List Row)
  | [] => some []
  | (k, v) :: rest =>
    match keyFromBytes k with
    | none => none
    | some (u, ts) =>
      if u = url then
        match decodeValue v with
        | none => none
        | some (d, c) => (collectRows url rest).map (rowOf ts d c :: ·)
      else some []

/-- Model of `Database::lookup`: seek to the first key at or after the raw
url bytes, run the collection loop, then explicitly re-sort the collected
rows in descending timestamp order. -/
def lookupDb (db : List (List Nat × List Nat)) (url : List Nat) : Option (List Row) :=
  (collectRows url (db.dropWhile (fun kv => byteLt kv.1 url))).map
    (List.insertionSort rowGe)

/-- The rows of `db` whose decoded key url component is exactly `url`,
in database key order. -/
def urlRowsOf (db : List (List Nat × List Nat)) (url : List Nat) : List Row :=
  db.filterMap fun kv =>
    match keyFromBytes kv.1 with
    | some (u, ts) =>
      if u = url then (decodeValue kv.2).map (fun dc => rowOf ts dc.1 dc.2) else none
    | none => none

/-- A key is canonical when it is `url ++ 0x00 ++ 4 timestamp bytes` with a
NUL-free, valid-UTF-8 url and genuine byte values in the timestamp — the
shape produced by `Key::to_bytes` from a NUL-free `&str`. -/
def canonicalKey (k : List Nat) : Bool :=
  5 ≤ k.length &&
    k[k.length - 5]? == some 0 &&
    !(k.take (k.length - 5)).contains 0 &&
    utf8Valid (k.take (k.length - 5)) &&
    (k.drop (k.length - 4)).all (· < 256)

/-- Strict ascending key order of an association list, as maintained by
RocksDB (keys are unique and iterated in ascending byte order). -/
def ascKeys : List (List Nat × List Nat) → Bool
  | [] => true
  | [_] => true
  | a :: b :: rest => byteLt a.1 b.1 && ascKeys (b :: rest)

/-- A database is well formed when its keys are canonical and strictly
ascending and all of its values decode. -/
def dbWF (db : List (List Nat × List Nat)) : Bool :=
  db.all (fun kv => canonicalKey kv.1 && (decodeValue kv.2).isSome) && ascKeys db

/-! ### The status classification (`Manager::lookup_status`) -/

inductive ImageStatus where
  | downloaded (entry : Row)
  | downloading
  | failed (ts : Nat)
  deriving DecidableEq, Repr

/-- Model of `Manager::lookup_status`: an empty lookup result means the
image is (treated as) downloading; otherwise the first `Ok` entry in the
descending-sorted results wins, and only if there is none is the first
failure timestamp reported (`unwrap_or_default` supplies epoch 0 in the
unreachable no-failure case). -/
def lookupStatus (db : List (List Nat × List Nat)) (url : List Nat) :
    Option ImageStatus :=
  (lookupDb db url).map fun results =>
    if results.isEmpty then .downloading
    else
      match results.find? Row.isSuccess with
      | some entry => .downloaded entry
      | none => .failed ((results.findSome? Row.failureTs).getD 0)

/-! ### Decomposition and ordering facts about canonical keys -/

theorem keyFromBytes_append (u : List Nat) (s : Nat) (t4 : List Nat)
    (h4 : t4.length = 4) (hu : utf8Valid u = true) :
    keyFromBytes (u ++ s :: t4) = some (u, be32val t4) := by
  have hlen : (u ++ s :: t4).length = u.length + 5 := by simp [h4]
  have htake : (u ++ s :: t4).take ((u ++ s :: t4).length - 5) = u := by
    rw [hlen]
    have harith : u.length + 5 - 5 = u.length := by omega
    rw [harith]
    exact List.take_left u (s :: t4)
  have hdrop : (u ++ s :: t4).drop ((u ++ s :: t4).length - 4) = t4 := by
    rw [hlen]
    have : u ++ s :: t4 = (u ++ [s]) ++ t4 := by simp
    rw [this]
    have hl : u.length + 5 - 4 = (u ++ [s]).length := by simp
    rw [hl]
    exact List.drop_left (u ++ [s]) t4
  unfold keyFromBytes
  rw [htake, hdrop, hlen]
  simp [hu]

theorem canonicalKey_cases {k : List Nat} (h : canonicalKey k = true) :
    ∃ u t4, k = u ++ 0 :: t4 ∧ t4.length = 4 ∧ (∀ b ∈ t4, b < 256) ∧
      u.contains 0 = false ∧ utf8Valid u = true ∧
      k.take (k.length - 5) = u := by
  unfold canonicalKey at h
  simp only [Bool.and_eq_true, beq_iff_eq, Bool.not_eq_true', decide_eq_true_eq,
    List.all_eq_true] at h
  obtain ⟨⟨⟨⟨hlen, hsep⟩, hnul⟩, hutf⟩, hbytes⟩ := h
  have hlen5 : 5 ≤ k.length := hlen
  have hidx : k.length - 5 < k.length := by omega
  refine ⟨k.take (k.length - 5), k.drop (k.length - 4), ?_, ?_, ?_, hnul, hutf, rfl⟩
  · have hsplit : k = k.take (k.length - 5) ++ k.drop (k.length - 5) :=
      (List.take_append_drop _ k).symm
    have hcons : k.drop (k.length - 5) = k[k.length - 5] :: k.drop (k.length - 4) := by
      have := List.drop_eq_getElem_cons hidx
      have harith : k.length - 5 + 1 = k.length - 4 := by omega
      rwa [harith] at this
    have hget : k[k.length - 5] = 0 := by
      have := List.getElem?_eq_getElem hidx
      rw [this] at hsep
      exact Option.some_injective _ hsep
    rw [hget] at hcons
    rw [← hcons]
    exact hsplit
  · have := List.length_drop (k.length - 4) k
    omega
  · intro b hb
    exact hbytes b hb

theorem utf8Valid_nul_free_decode {k : List Nat} (h : canonicalKey k = true) :
    keyFromBytes k = some (k.take (k.length - 5), be32val (k.drop (k.length - 4))) := by
  obtain ⟨u, t4, hk, h4, _, _, hutf, hcomp⟩ := canonicalKey_cases h
  have := keyFromBytes_append u 0 t4 h4 hutf
  rw [hk]
  rw [this]
  have hdrop : (u ++ 0 :: t4).drop ((u ++ 0 :: t4).length - 4) = t4 := by
    have hlen : (u ++ 0 :: t4).length = u.length + 5 := by simp [h4]
    rw [hlen]
    have heq : u ++ 0 :: t4 = (u ++ [0]) ++ t4 := by simp
    rw [heq]
    have hl : u.length + 5 - 4 = (u ++ [(0 : Nat)]).length := by simp
    rw [hl]
    exact List.drop_left (u ++ [0]) t4
  rw [← hk, hcomp] at *
  rw [hk] at hdrop ⊢
  rw [hdrop]

theorem byteLt_key_url : ∀ (u : List Nat) (t url : List Nat),
    u.contains 0 = false → url.contains 0 = false →
    byteLt (u ++ 0 :: t) url = byteLt u url
  | [], t, [], _, _ => by rw [byteLt_nil_right, byteLt_nil_right]
  | [], t, b :: bs, _, hurl => by
    have hb : b ≠ 0 := by
      simp [List.contains_cons] at hurl
      exact fun he => absurd he.symm (by simpa using hurl.1)
    show byteLt (0 :: t) (b :: bs) = byteLt [] (b :: bs)
    have h1 : byteLt (0 :: t) (b :: bs) = true :=
      (byteLt_cons_iff 0 b t bs).mpr (Or.inl (Nat.pos_of_ne_zero hb))
    rw [h1]; rfl
  | a :: as, t, [], _, _ => by
    show byteLt (a :: (as ++ 0 :: t)) [] = byteLt (a :: as) []
    rw [byteLt_nil_right, byteLt_nil_right]
  | a :: as, t, b :: bs, hu, hurl => by
    have hu' : as.contains 0 = false := by
      simp [List.contains_cons] at hu; exact by simpa using hu.2
    have hurl' : bs.contains 0 = false := by
      simp [List.contains_cons] at hurl; exact by simpa using hurl.2
    show byteLt (a :: (as ++ 0 :: t)) (b :: bs) = byteLt (a :: as) (b :: bs)
    simp only [byteLt]
    rw [byteLt_key_url as t bs hu' hurl']

theorem byteLt_key_key : ∀ (u1 t1 u2 t2 : List Nat),
    u1.contains 0 = false → u2.contains 0 = false → u1 ≠ u2 →
    byteLt (u1 ++ 0 :: t1) (u2 ++ 0 :: t2) = byteLt u1 u2
  | [], _, [], _, _, _, hne => absurd rfl hne
  | [], t1, b :: bs, t2, _, hu2, _ => by
    have hb : b ≠ 0 := by
      simp [List.contains_cons] at hu2
      exact fun he => absurd he.symm (by simpa using hu2.1)
    show byteLt (0 :: t1) (b :: (bs ++ 0 :: t2)) = byteLt [] (b :: bs)
    have h1 : byteLt (0 :: t1) (b :: (bs ++ 0 :: t2)) = true :=
      (byteLt_cons_iff _ _ _ _).mpr (Or.inl (Nat.pos_of_ne_zero hb))
    rw [h1]; rfl
  | a :: as, t1, [], t2, hu1, _, _ => by
    have ha : a ≠ 0 := by
      simp [List.contains_cons] at hu1
      exact fun he => absurd he.symm (by simpa using hu1.1)
    show byteLt (a :: (as ++ 0 :: t1)) (0 :: t2) = byteLt (a :: as) []
    rw [byteLt_nil_right]
    rw [← Bool.not_eq_true]
    intro hcontra
    rcases (byteLt_cons_iff a 0 (as ++ 0 :: t1) t2).mp hcontra with h | ⟨h, _⟩
    · omega
    · exact ha h
  | a :: as, t1, b :: bs, t2, hu1, hu2, hne => by
    have hu1' : as.contains 0 = false := by
      simp [List.contains_cons] at hu1; exact by simpa using hu1.2
    have hu2' : bs.contains 0 = false := by
      simp [List.contains_cons] at hu2; exact by simpa using hu2.2
    show byteLt (a :: (as ++ 0 :: t1)) (b :: (bs ++ 0 :: t2)) = byteLt (a :: as) (b :: bs)
    simp only [byteLt]
    by_cases hab : a = b
    · have hne' : as ≠ bs := fun he => hne (by rw [hab, he])
      rw [byteLt_key_key as t1 bs t2 hu1' hu2' hne']
    · simp [hab]

theorem byteLt_key_same (u t1 t2 : List Nat) :
    byteLt (u ++ 0 :: t1) (u ++ 0 :: t2) = byteLt t1 t2 := by
  rw [byteLt_append_same]
  simp [byteLt]

theorem be32val_inj : ∀ a b : List Nat, a.length = 4 → b.length = 4 →
    (∀ x ∈ a, x < 256) → (∀ x ∈ b, x < 256) → be32val a = be32val b → a = b := by
  intro a b ha hb hba hbb hval
  rcases a with _ | ⟨a0, _ | ⟨a1, _ | ⟨a2, _ | ⟨a3, _ | _⟩⟩⟩⟩ <;> simp at ha
  rcases b with _ | ⟨b0, _ | ⟨b1, _ | ⟨b2, _ | ⟨b3, _ | _⟩⟩⟩⟩ <;> simp at hb
  simp only [be32val, List.foldl] at hval
  simp only [List.mem_cons, List.not_mem_nil] at hba hbb
  have h0 := hba a0 (by tauto)
  have h1 := hba a1 (by tauto)
  have h2 := hba a2 (by tauto)
  have h3 := hba a3 (by tauto)
  have g0 := hbb b0 (by tauto)
  have g1 := hbb b1 (by tauto)
  have g2 := hbb b2 (by tauto)
  have g3 := hbb b3 (by tauto)
  have : a0 = b0 ∧ a1 = b1 ∧ a2 = b2 ∧ a3 = b3 := by omega
  simp [this.1, this.2.1, this.2.2.1, this.2.2.2]

/-! ### Characterization of `Database::lookup` on canonical databases -/

/-- The row a well-formed database entry decodes to (junk on entries that
cannot decode; only applied under well-formedness). -/
def decRow (kv : List Nat × List Nat) : Row :=
  match keyFromBytes kv.1, decodeValue kv.2 with
  | some (_, ts), some (d, c) => rowOf ts d c
  | _, _ => .failure 0

theorem ascKeys_pairwise : ∀ db, ascKeys db = true →
    List.Pairwise (fun a b : List Nat × List Nat => byteLt a.1 b.1 = true) db
  | [], _ => List.Pairwise.nil
  | [_], _ => by simp
  | a :: b :: rest, h => by
    have h' : byteLt a.1 b.1 = true ∧ ascKeys (b :: rest) = true := by
      simpa [ascKeys, Bool.and_eq_true] using h
    have ih := ascKeys_pairwise (b :: rest) h'.2
    refine List.Pairwise.cons ?_ ih
    intro y hy
    rcases List.mem_cons.mp hy with rfl | hy'
    · exact h'.1
    · exact byteLt_trans _ _ _ h'.1 (List.rel_of_pairwise_cons ih hy')

theorem dropWhile_head_false {α : Type} (p : α → Bool) :
    ∀ (l : List α) (y : α) (ys : List α), l.dropWhile p = y :: ys → p y = false
  | [], y, ys, h => by simp [List.dropWhile] at h
  | a :: l, y, ys, h => by
    rw [List.dropWhile_cons] at h
    by_cases ha : p a = true
    · rw [if_pos ha] at h
      exact dropWhile_head_false p l y ys h
    · rw [if_neg ha] at h
      cases h
      simpa using ha

theorem filterMap_eq_map_of_some {α β : Type} (f : α → Option β) (g : α → β) :
    ∀ l : List α, (∀ x ∈ l, f x = some (g x)) → l.filterMap f = l.map g
  | [], _ => rfl
  | a :: l, h => by
    rw [List.filterMap_cons, h a (List.mem_cons_self a l),
      filterMap_eq_map_of_some f g l (fun x hx => h x (List.mem_cons_of_mem a hx))]
    rfl

theorem filterMap_eq_nil_of_none {α β : Type} (f : α → Option β) :
    ∀ l : List α, (∀ x ∈ l, f x = none) → l.filterMap f = ([] : List β)
  | [], _ => rfl
  | a :: l, h => by
    rw [List.filterMap_cons, h a (List.mem_cons_self a l)]
    exact filterMap_eq_nil_of_none f l (fun x hx => h x (List.mem_cons_of_mem a hx))

theorem collectRows_block (url : List Nat) :
    ∀ (block rest : List (List Nat × List Nat)),
      (∀ kv ∈ block,
        (∃ ts, keyFromBytes kv.1 = some (url, ts)) ∧ (decodeValue kv.2).isSome = true) →
      (rest = [] ∨ ∃ kv rest', rest = kv :: rest' ∧
        ∃ u ts, keyFromBytes kv.1 = some (u, ts) ∧ u ≠ url) →
      collectRows url (block ++ rest) = some (block.map decRow)
  | [], rest, _, hr => by
    rcases hr with rfl | ⟨kv, rest', rfl, u, ts, hk, hu⟩
    · rfl
    · show collectRows url (kv :: rest') = some []
      unfold collectRows
      rw [hk]
      simp [hu]
  | kv :: block, rest, hb, hr => by
    obtain ⟨⟨ts, hk⟩, hv⟩ := hb kv (List.mem_cons_self kv block)
    obtain ⟨dc, hdc⟩ := Option.isSome_iff_exists.mp hv
    obtain ⟨d, c⟩ := dc
    show collectRows url (kv :: (block ++ rest)) = _
    unfold collectRows
    rw [hk]
    simp only [if_pos rfl]
    rw [hdc,
      collectRows_block url block rest (fun x hx => hb x (List.mem_cons_of_mem _ hx)) hr]
    simp [decRow, hk, hdc]

theorem lookupDb_canonical (db : List (List Nat × List Nat)) (url : List Nat)
    (hdb : dbWF db = true) (hurl : url.contains 0 = false) :
    ∃ rows, lookupDb db url = some rows ∧
      rows.Perm (urlRowsOf db url) ∧
      List.Pairwise (fun r r' : Row => r'.tsOf < r.tsOf) rows := by
  have hparts : (db.all fun kv => canonicalKey kv.1 && (decodeValue kv.2).isSome) = true ∧
      ascKeys db = true := by
    simpa [dbWF, Bool.and_eq_true] using hdb
  have hall : ∀ kv ∈ db, canonicalKey kv.1 = true ∧ (decodeValue kv.2).isSome = true := by
    intro kv hkv
    have := List.all_eq_true.mp hparts.1 kv hkv
    simpa [Bool.and_eq_true] using this
  have hsorted := ascKeys_pairwise db hparts.2
  set P : List Nat × List Nat → Bool := fun kv => byteLt kv.1 url with hP
  set Q : List Nat × List Nat → Bool := fun kv => kv.1.take (kv.1.length - 5) == url
    with hQ
  have hdecomp : ∀ kv ∈ db, ∃ u t4, kv.1 = u ++ 0 :: t4 ∧ t4.length = 4 ∧
      (∀ b ∈ t4, b < 256) ∧ u.contains 0 = false ∧
      keyFromBytes kv.1 = some (u, be32val t4) ∧
      (Q kv = true ↔ u = url) := by
    intro kv hkv
    obtain ⟨hc, _⟩ := hall kv hkv
    obtain ⟨u, t4, hk, h4, hbytes, hnul, hutf, hcomp⟩ := canonicalKey_cases hc
    refine ⟨u, t4, hk, h4, hbytes, hnul, ?_, ?_⟩
    · rw [hk]; exact keyFromBytes_append u 0 t4 h4 hutf
    · show (kv.1.take (kv.1.length - 5) == url) = true ↔ u = url
      rw [hcomp]; exact beq_iff_eq
  set rem := db.dropWhile P with hremdef
  have hdbsplit : db.takeWhile P ++ rem = db :=
    List.takeWhile_append_dropWhile P db
  have hremsorted : List.Pairwise (fun a b : List Nat × List Nat => byteLt a.1 b.1 = true)
      rem := hsorted.sublist (List.dropWhile_sublist P)
  have hremsub : ∀ kv ∈ rem, kv ∈ db := fun kv hkv =>
    (List.dropWhile_sublist P).mem hkv
  have hremfail : ∀ y ∈ rem, P y = false := by
    cases hrc : rem with
    | nil => intro y hy; simp at hy
    | cons h0 t0 =>
      have hh0 : P h0 = false :=
        dropWhile_head_false P db h0 t0 (by rw [← hremdef]; exact hrc)
      intro y hy
      rcases List.mem_cons.mp hy with rfl | hy'
      · exact hh0
      · have hpw : List.Pairwise
            (fun a b : List Nat × List Nat => byteLt a.1 b.1 = true) (h0 :: t0) :=
          hrc ▸ hremsorted
        have hrel : byteLt h0.1 y.1 = true :=
          List.rel_of_pairwise_cons hpw hy'
        by_contra hne
        have hpy : P y = true := by
          cases hv : P y
          · exact absurd hv hne
          · rfl
        have : P h0 = true := byteLt_trans _ _ _ hrel hpy
        rw [hh0] at this
        exact Bool.false_ne_true this
  set block := rem.takeWhile Q with hblockdef
  set rest := rem.dropWhile Q with hrestdef
  have hbr : block ++ rest = rem := List.takeWhile_append_dropWhile Q rem
  have hblockmem : ∀ kv ∈ block, kv ∈ rem := fun kv hkv =>
    (List.takeWhile_sublist Q).mem hkv
  have hrestmem : ∀ kv ∈ rest, kv ∈ rem := fun kv hkv =>
    (List.dropWhile_sublist Q).mem hkv
  have hblockQ : ∀ kv ∈ block, Q kv = true := fun kv hkv =>
    List.mem_takeWhile_imp hkv
  have hrestQ : ∀ kv ∈ rest, Q kv = false := by
    cases hrc : rest with
    | nil => intro y hy; simp at hy
    | cons h0 t0 =>
      have hh0 : Q h0 = false :=
        dropWhile_head_false Q rem h0 t0 (by rw [← hrestdef]; exact hrc)
      have hrestsorted : List.Pairwise
          (fun a b : List Nat × List Nat => byteLt a.1 b.1 = true) rest :=
        hremsorted.sublist (List.dropWhile_sublist Q)
      intro y hy
      rcases List.mem_cons.mp hy with rfl | hy'
      · exact hh0
      · have hpw : List.Pairwise
            (fun a b : List Nat × List Nat => byteLt a.1 b.1 = true) (h0 :: t0) :=
          hrc ▸ hrestsorted
        have hrel : byteLt h0.1 y.1 = true :=
          List.rel_of_pairwise_cons hpw hy'
        cases hv : Q y
        · rfl
        · exfalso
          have hy_rest : y ∈ rest := by rw [hrc]; exact List.mem_cons_of_mem h0 hy'
          have hh0_rest : h0 ∈ rest := by rw [hrc]; exact List.mem_cons_self h0 t0
          have hy_rem : y ∈ rem := hrestmem y hy_rest
          have hh0_rem : h0 ∈ rem := hrestmem h0 hh0_rest
          obtain ⟨uy, ty, hky, _, _, hnuly, _, hqy⟩ := hdecomp y (hremsub y hy_rem)
          obtain ⟨u0, t0', hk0, _, _, hnul0, _, hq0⟩ :=
            hdecomp h0 (hremsub h0 hh0_rem)
          have huy : uy = url := hqy.mp hv
          have hu0 : u0 ≠ url := by
            intro he
            have hq := hq0.mpr he
            rw [hq] at hh0
            simp at hh0
          have hP0 : P h0 = false := hremfail h0 hh0_rem
          have hlt0 : byteLt u0 url = false := by
            have hPval : P h0 = byteLt u0 url := by
              show byteLt h0.1 url = byteLt u0 url
              rw [hk0, byteLt_key_url u0 t0' url hnul0 hurl]
            rw [hPval] at hP0
            exact hP0
          have hval : byteLt h0.1 y.1 = byteLt u0 url := by
            rw [hk0, hky, huy, byteLt_key_key u0 t0' url ty hnul0 hurl hu0]
          rw [hval, hlt0] at hrel
          exact Bool.false_ne_true hrel
  have hcollect : collectRows url rem = some (block.map decRow) := by
    rw [← hbr]
    apply collectRows_block
    · intro kv hkv
      obtain ⟨u, t4, hk, h4, hbytes, hnul, hkey, hq⟩ :=
        hdecomp kv (hremsub kv (hblockmem kv hkv))
      have hu : u = url := hq.mp (hblockQ kv hkv)
      exact ⟨⟨be32val t4, by rw [hkey, hu]⟩,
        (hall kv (hremsub kv (hblockmem kv hkv))).2⟩
    · cases hrc : rest with
      | nil => exact Or.inl rfl
      | cons h0 t0 =>
        right
        refine ⟨h0, t0, rfl, ?_⟩
        have hh0_rest : h0 ∈ rest := by rw [hrc]; exact List.mem_cons_self h0 t0
        obtain ⟨u, t4, hk, h4, hbytes, hnul, hkey, hq⟩ :=
          hdecomp h0 (hremsub h0 (hrestmem h0 hh0_rest))
        refine ⟨u, be32val t4, hkey, ?_⟩
        intro he
        have hqv := hq.mpr he
        rw [hrestQ h0 hh0_rest] at hqv
        simp at hqv
  have hlookup : lookupDb db url =
      some (List.insertionSort rowGe (block.map decRow)) := by
    unfold lookupDb
    rw [← hP, ← hremdef, hcollect]
    rfl
  have hperm1 : (List.insertionSort rowGe (block.map decRow)).Perm
      (block.map decRow) := List.perm_insertionSort rowGe _
  have hurlrows : urlRowsOf db url = block.map decRow := by
    have happ : ∀ l1 l2 : List (List Nat × List Nat),
        urlRowsOf (l1 ++ l2) url = urlRowsOf l1 url ++ urlRowsOf l2 url := by
      intro l1 l2
      simp [urlRowsOf]
    have hnilpart : ∀ l : List (List Nat × List Nat),
        (∀ kv ∈ l, ∃ u ts, keyFromBytes kv.1 = some (u, ts) ∧ u ≠ url) →
        urlRowsOf l url = [] := by
      intro l hl
      unfold urlRowsOf
      refine filterMap_eq_nil_of_none _ l ?_
      intro kv hkv
      obtain ⟨u, ts, hk, hu⟩ := hl kv hkv
      simp [hk, hu]
    have hmappart : ∀ l : List (List Nat × List Nat),
        (∀ kv ∈ l, (∃ ts, keyFromBytes kv.1 = some (url, ts)) ∧
          (decodeValue kv.2).isSome = true) →
        urlRowsOf l url = l.map decRow := by
      intro l hl
      unfold urlRowsOf
      refine filterMap_eq_map_of_some _ decRow l ?_
      intro kv hkv
      obtain ⟨⟨ts, hk⟩, hv⟩ := hl kv hkv
      obtain ⟨dc, hdc⟩ := Option.isSome_iff_exists.mp hv
      obtain ⟨d, c⟩ := dc
      simp [decRow, hk, hdc]
    have hstep1 : urlRowsOf (db.takeWhile P) url = [] := by
      refine hnilpart _ ?_
      intro kv hkv
      have hkvdb : kv ∈ db := (List.takeWhile_sublist P).mem hkv
      have hkvP : P kv = true := List.mem_takeWhile_imp hkv
      obtain ⟨u, t4, hk, h4, hbytes, hnul, hkey, hq⟩ := hdecomp kv hkvdb
      refine ⟨u, be32val t4, hkey, ?_⟩
      have hPval : P kv = byteLt u url := by
        show byteLt kv.1 url = byteLt u url
        rw [hk, byteLt_key_url u t4 url hnul hurl]
      rw [hPval] at hkvP
      exact byteLt_ne hkvP
    have hstep2 : urlRowsOf block url = block.map decRow := by
      refine hmappart _ ?_
      intro kv hkv
      obtain ⟨u, t4, hk, h4, hbytes, hnul, hkey, hq⟩ :=
        hdecomp kv (hremsub kv (hblockmem kv hkv))
      have hu : u = url := hq.mp (hblockQ kv hkv)
      exact ⟨⟨be32val t4, by rw [hkey, hu]⟩,
        (hall kv (hremsub kv (hblockmem kv hkv))).2⟩
    have hstep3 : urlRowsOf rest url = [] := by
      refine hnilpart _ ?_
      intro kv hkv
      obtain ⟨u, t4, hk, h4, hbytes, hnul, hkey, hq⟩ :=
        hdecomp kv (hremsub kv (hrestmem kv hkv))
      refine ⟨u, be32val t4, hkey, ?_⟩
      intro he
      have hqv := hq.mpr he
      rw [hrestQ kv hkv] at hqv
      simp at hqv
    calc urlRowsOf db url
        = urlRowsOf (db.takeWhile P ++ (block ++ rest)) url := by
          rw [hbr, hdbsplit]
      _ = urlRowsOf (db.takeWhile P) url ++
            (urlRowsOf block url ++ urlRowsOf rest url) := by rw [happ, happ]
      _ = block.map decRow := by rw [hstep1, hstep2, hstep3]; simp
  refine ⟨List.insertionSort rowGe (block.map decRow), hlookup, ?_, ?_⟩
  · rw [hurlrows]
    exact hperm1
  · have hsorted_rows : List.Pairwise rowGe
        (List.insertionSort rowGe (block.map decRow)) :=
      List.sorted_insertionSort rowGe (block.map decRow)
    have hblocksorted : List.Pairwise
        (fun a b : List Nat × List Nat => byteLt a.1 b.1 = true) block :=
      hremsorted.sublist (List.takeWhile_sublist Q)
    have hne_block : List.Pairwise
        (fun a b => (decRow a).tsOf ≠ (decRow b).tsOf) block := by
      refine List.Pairwise.imp_of_mem ?_ hblocksorted
      intro a b ha hb hab
      obtain ⟨ua, ta, hka, h4a, hbytesa, hnula, hkeya, hqa⟩ :=
        hdecomp a (hremsub a (hblockmem a ha))
      obtain ⟨ub, tb, hkb, h4b, hbytesb, hnulb, hkeyb, hqb⟩ :=
        hdecomp b (hremsub b (hblockmem b hb))
      have hua : ua = url := hqa.mp (hblockQ a ha)
      have hub : ub = url := hqb.mp (hblockQ b hb)
      have htlt : byteLt ta tb = true := by
        rw [hka, hkb, hua, hub, byteLt_key_same] at hab
        exact hab
      have htne : ta ≠ tb := byteLt_ne htlt
      have htsne : be32val ta ≠ be32val tb := fun he =>
        htne (be32val_inj ta tb h4a h4b hbytesa hbytesb he)
      obtain ⟨dca, hdca⟩ :=
        Option.isSome_iff_exists.mp (hall a (hremsub a (hblockmem a ha))).2
      obtain ⟨da, ca⟩ := dca
      obtain ⟨dcb, hdcb⟩ :=
        Option.isSome_iff_exists.mp (hall b (hremsub b (hblockmem b hb))).2
      obtain ⟨db', cb⟩ := dcb
      have hda : decRow a = rowOf (be32val ta) da ca := by
        simp [decRow, hkeya, hdca]
      have hdb2 : decRow b = rowOf (be32val tb) db' cb := by
        simp [decRow, hkeyb, hdcb]
      rw [hda, hdb2, tsOf_rowOf, tsOf_rowOf]
      exact htsne
    have hne_rows : List.Pairwise (fun r r' : Row => r.tsOf ≠ r'.tsOf)
        (List.insertionSort rowGe (block.map decRow)) :=
      (List.Perm.pairwise_iff (fun h => Ne.symm h) hperm1).mpr
        (List.pairwise_map.mpr hne_block)
    refine (hsorted_rows.and hne_rows).imp ?_
    intro r r' h
    exact Nat.lt_of_le_of_ne h.1 (fun he => h.2 he.symm)

/-! ### Claim theorems for the index database -/

/-- C2 counterexample: the claim quantifies over every url and any index
contents, but when the index also holds a row for a url containing NUL
bytes, the forward scan can hit that foreign key first and break before
ever reaching rows of the requested url.  Here the database holds the key
for url `"a\x00\x00"` at timestamp 0 and the key for url `"a"` at
timestamp 16777216, in correct ascending key order; `lookup("a")` returns
no rows although a row whose key url component is exactly `"a"` exists. -/
theorem c2_counterexample :
    lookupDb [([97, 0, 0, 0, 0, 0, 0, 0], (List.replicate 16 0) ++ [0]),
        ([97, 0, 1, 0, 0, 0], (List.replicate 16 0) ++ [0])] [97] = some [] ∧
    urlRowsOf [([97, 0, 0, 0, 0, 0, 0, 0], (List.replicate 16 0) ++ [0]),
        ([97, 0, 1, 0, 0, 0], (List.replicate 16 0) ++ [0])] [97] =
      [Row.failure 16777216] ∧
    ascKeys [([97, 0, 0, 0, 0, 0, 0, 0], (List.replicate 16 0) ++ [0]),
        ([97, 0, 1, 0, 0, 0], (List.replicate 16 0) ++ [0])] = true := by
  refine ⟨by decide, by decide, by decide⟩

/-- C2 (amended): over a well-formed database — canonical keys whose urls
are NUL-free and valid UTF-8, strictly ascending key order, decodable
values — and for a NUL-free url, `lookup(url)` returns exactly the rows
whose key url component equals `url` (hence, in particular, never a row of
any other url of which `url` is a literal string prefix), sorted strictly
descending by timestamp. -/
theorem c2_lookup_exact_rows_sorted (db : List (List Nat × List Nat))
    (url : List Nat) (hdb : dbWF db = true) (hurl : url.contains 0 = false) :
    ∃ rows, lookupDb db url = some rows ∧
      rows.Perm (urlRowsOf db url) ∧
      List.Pairwise (fun r r' : Row => r'.tsOf < r.tsOf) rows :=
  lookupDb_canonical db url hdb hurl

/-- Witness for C2 (amended) at a concrete database with two rows of url
`"a"`. -/
theorem c2_lookup_exact_rows_sorted_witness :
    dbWF [([97, 0, 0, 0, 0, 1], (List.replicate 16 2) ++ [7]),
        ([97, 0, 0, 0, 0, 2], (List.replicate 16 0) ++ [0])] = true ∧
    ∃ rows, lookupDb [([97, 0, 0, 0, 0, 1], (List.replicate 16 2) ++ [7]),
        ([97, 0, 0, 0, 0, 2], (List.replicate 16 0) ++ [0])] [97] = some rows ∧
      rows.Perm (urlRowsOf [([97, 0, 0, 0, 0, 1], (List.replicate 16 2) ++ [7]),
        ([97, 0, 0, 0, 0, 2], (List.replicate 16 0) ++ [0])] [97]) ∧
      List.Pairwise (fun r r' : Row => r'.tsOf < r.tsOf) rows :=
  ⟨by decide,
    c2_lookup_exact_rows_sorted
      [([97, 0, 0, 0, 0, 1], (List.replicate 16 2) ++ [7]),
        ([97, 0, 0, 0, 0, 2], (List.replicate 16 0) ++ [0])]
      [97] (by decide) (by decide)⟩

/-- C7 counterexample: with a url containing NUL bytes in the index, the
scan can break before reaching any row of the requested url, so a url that
has a Success row at T1 = 9 and a later Failure row at T2 = 16777216
classifies as Downloading rather than Downloaded. -/
theorem c7_counterexample :
    lookupStatus [([97, 0, 0, 0, 0, 0, 0, 0], (List.replicate 16 0) ++ [0]),
        ([97, 0, 0, 0, 0, 9], (List.replicate 16 3) ++ [7]),
        ([97, 0, 1, 0, 0, 0], (List.replicate 16 0) ++ [0])] [97] =
      some ImageStatus.downloading ∧
    urlRowsOf [([97, 0, 0, 0, 0, 0, 0, 0], (List.replicate 16 0) ++ [0]),
        ([97, 0, 0, 0, 0, 9], (List.replicate 16 3) ++ [7]),
        ([97, 0, 1, 0, 0, 0], (List.replicate 16 0) ++ [0])] [97] =
      [Row.success 9 (List.replicate 16 3) 7, Row.failure 16777216] ∧
    (9 : Nat) < 16777216 ∧
    ascKeys [([97, 0, 0, 0, 0, 0, 0, 0], (List.replicate 16 0) ++ [0]),
        ([97, 0, 0, 0, 0, 9], (List.replicate 16 3) ++ [7]),
        ([97, 0, 1, 0, 0, 0], (List.replicate 16 0) ++ [0])] = true := by
  refine ⟨by decide, by decide, by decide, by decide⟩

/-- C7 (amended): over a well-formed database and NUL-free url, if the
index holds a Success row for the url at time `t1` and a Failure row at a
later time `t2 > t1`, then the lookup-based classification resolves to
`Downloaded` carrying a Success row of that url — never to `Failed`. -/
theorem c7_success_wins (db : List (List Nat × List Nat)) (url : List Nat)
    (k1 v1 k2 v2 : List Nat) (t1 t2 : Nat) (dg1 : List Nat) (c1 : Nat)
    (hdb : dbWF db = true) (hurl : url.contains 0 = false)
    (hmem1 : (k1, v1) ∈ db) (hk1 : keyFromBytes k1 = some (url, t1))
    (hv1 : decodeValue v1 = some (dg1, c1)) (hc1 : c1 ≠ 0)
    (_hmem2 : (k2, v2) ∈ db) (_hk2 : keyFromBytes k2 = some (url, t2))
    (_hv2 : decodeValue v2 = some (List.replicate 16 0, 0))
    (_ht : t1 < t2) :
    ∃ e, lookupStatus db url = some (ImageStatus.downloaded e) ∧
      e.isSuccess = true ∧ e ∈ urlRowsOf db url := by
  obtain ⟨rows, hl, hperm, hsort⟩ := lookupDb_canonical db url hdb hurl
  have hs1mem : rowOf t1 dg1 c1 ∈ urlRowsOf db url := by
    unfold urlRowsOf
    refine List.mem_filterMap.mpr ⟨(k1, v1), hmem1, ?_⟩
    simp [hk1, hv1]
  have hs1rows : rowOf t1 dg1 c1 ∈ rows := hperm.mem_iff.mpr hs1mem
  have hs1succ : (rowOf t1 dg1 c1).isSuccess = true := by
    simp [rowOf, hc1, Row.isSuccess]
  have hnonempty : rows ≠ [] := by
    intro he; rw [he] at hs1rows; cases hs1rows
  have hfind : (rows.find? Row.isSuccess).isSome = true := by
    rw [List.find?_isSome]
    exact ⟨_, hs1rows, hs1succ⟩
  obtain ⟨e, he⟩ := Option.isSome_iff_exists.mp hfind
  refine ⟨e, ?_, List.find?_some he, hperm.mem_iff.mp (List.mem_of_find?_eq_some he)⟩
  unfold lookupStatus
  rw [hl]
  have hie : rows.isEmpty = false := by
    cases rows with
    | nil => exact absurd rfl hnonempty
    | cons a l => rfl
  simp [hie, he, hnonempty]

/-- Witness for C7 (amended) at a concrete database with a Success row at
time 1 and a Failure row at time 2 for url `"a"`. -/
theorem c7_success_wins_witness :
    ∃ e, lookupStatus [([97, 0, 0, 0, 0, 1], (List.replicate 16 2) ++ [7]),
        ([97, 0, 0, 0, 0, 2], (List.replicate 16 0) ++ [0])] [97] =
      some (ImageStatus.downloaded e) ∧
      e.isSuccess = true ∧
      e ∈ urlRowsOf [([97, 0, 0, 0, 0, 1], (List.replicate 16 2) ++ [7]),
        ([97, 0, 0, 0, 0, 2], (List.replicate 16 0) ++ [0])] [97] :=
  c7_success_wins
    [([97, 0, 0, 0, 0, 1], (List.replicate 16 2) ++ [7]),
      ([97, 0, 0, 0, 0, 2], (List.replicate 16 0) ++ [0])]
    [97] [97, 0, 0, 0, 0, 1] ((List.replicate 16 2) ++ [7])
    [97, 0, 0, 0, 0, 2] ((List.replicate 16 0) ++ [0]) 1 2
    (List.replicate 16 2) 7
    (by decide) (by decide) (by decide) (by decide) (by decide) (by decide)
    (by decide) (by decide) (by decide) (by decide)

/-- C10: index key decoding never verifies the NUL separator: any byte
sequence `u ++ s :: t4` (length at least 5) whose leading part `u` is
valid UTF-8 decodes successfully to the url `u` and the big-endian value
of the last 4 bytes, no matter what the separator byte `s` is. -/
theorem c10_no_separator_check (u : List Nat) (s : Nat) (t4 : List Nat)
    (h4 : t4.length = 4) (hu : utf8Valid u = true) :
    keyFromBytes (u ++ s :: t4) = some (u, be32val t4) :=
  keyFromBytes_append u s t4 h4 hu

/-- Witness for C10 with separator byte 0x62 (not NUL). -/
theorem c10_no_separator_check_witness :
    keyFromBytes [97, 98, 1, 2, 3, 4] = some ([97], be32val [1, 2, 3, 4]) :=
  c10_no_separator_check [97] 98 [1, 2, 3, 4] (by decide) (by decide)

/-- C4 counterexample: a 17-byte value with a nonzero digest but
content-type code 0 decodes and is classified as a Failure row, refuting
the claim that any value with nonzero digest decodes as a success —
classification looks only at the content-type code. -/
theorem c4_counterexample :
    decodeValue ((1 :: List.replicate 15 0) ++ [0]) =
      some (1 :: List.replicate 15 0, 0) ∧
    rowOf 7 (1 :: List.replicate 15 0) 0 = Row.failure 7 ∧
    (1 :: List.replicate 15 0) ≠ List.replicate 16 0 := by
  refine ⟨by decide, by decide, by decide⟩

/-- C4 (amended): every persisted value is exactly 17 bytes — the 16-byte
digest followed by the 1-byte content-type code; the failure sentinel is
sixteen 0x00 bytes with code 0; a well-formed value round-trips through
decoding; and a decoded value classifies as a Failure exactly when its
content-type code is 0, regardless of the digest (nonzero codes up to 17
classify as successes). -/
theorem c4_value_format (d : List Nat) (c ts : Nat)
    (hd : d.length = 16) (hc : c ≤ 17) :
    (encodeValue d c).length = 17 ∧
    (encodeValue d c).take 16 = d ∧
    (encodeValue d c).drop 16 = [c] ∧
    failedValueBytes = encodeValue (List.replicate 16 0) 0 ∧
    decodeValue (encodeValue d c) = some (d, c) ∧
    (rowOf ts d c = Row.failure ts ↔ c = 0) := by
  have htake : (d ++ [c]).take 16 = d := by
    rw [← hd]; exact List.take_left d [c]
  have hdrop : (d ++ [c]).drop 16 = [c] := by
    rw [← hd]; exact List.drop_left d [c]
  refine ⟨by simp [encodeValue, hd], htake, hdrop, rfl, ?_, ?_⟩
  · unfold decodeValue encodeValue
    have hlen : (d ++ [c]).length = 17 := by simp [hd]
    rw [if_pos hlen]
    have hget : (d ++ [c])[16]? = some c := by
      rw [List.getElem?_append_right (by omega), hd]
      rfl
    rw [hget]
    simp [hc, htake]
  · unfold rowOf
    by_cases h0 : c = 0
    · simp [h0]
    · simp [h0]

/-- Witness for C4 (amended) at a concrete digest and code. -/
theorem c4_value_format_witness :
    (encodeValue (List.replicate 16 5) 7).length = 17 ∧
    (encodeValue (List.replicate 16 5) 7).take 16 = List.replicate 16 5 ∧
    (encodeValue (List.replicate 16 5) 7).drop 16 = [7] ∧
    failedValueBytes = encodeValue (List.replicate 16 0) 0 ∧
    decodeValue (encodeValue (List.replicate 16 5) 7) =
      some (List.replicate 16 5, 7) ∧
    (rowOf 3 (List.replicate 16 5) 7 = Row.failure 3 ↔ (7 : Nat) = 0) :=
  c4_value_format (List.replicate 16 5) 7 3 (by decide) (by decide)

/-- C5 counterexample: a negative epoch second (here -1) is encoded as the
saturated maximum `u32` value, not as the clamp of -1 into the unsigned
32-bit range (which would be 0): `u32::try_from(-1).unwrap_or(u32::MAX)`
falls back to the maximum for negative inputs as well. -/
theorem c5_counterexample :
    keyToBytes [] (-1) = [0, 255, 255, 255, 255] ∧
    specClampU32 (-1) = 0 ∧
    satU32 (-1) = 4294967295 := by
  refine ⟨by decide, by decide, by decide⟩

/-- C5 (amended): the 4-byte big-endian seconds field of the encoded index
key is the big-endian encoding of `satU32` of the epoch seconds, where
values in `[0, 2^32)` encode exactly, values at or above `2^32` saturate
to `u32::MAX` — and negative values also map to `u32::MAX` (not to 0 as a
clamp would give). -/
theorem c5_seconds_saturation (url : List Nat) (t : Int) :
    (keyToBytes url t).drop (url.length + 1) = be32 (satU32 t) ∧
    (0 ≤ t → t < 4294967296 → satU32 t = t.toNat) ∧
    (4294967296 ≤ t → satU32 t = 4294967295) ∧
    (t < 0 → satU32 t = 4294967295) := by
  refine ⟨?_, ?_, ?_, ?_⟩
  · unfold keyToBytes
    have heq : url ++ 0 :: be32 (satU32 t) = (url ++ [0]) ++ be32 (satU32 t) := by
      simp
    rw [heq]
    have hl : url.length + 1 = (url ++ [(0 : Nat)]).length := by simp
    rw [hl]
    exact List.drop_left (url ++ [0]) (be32 (satU32 t))
  · intro h1 h2
    unfold satU32
    rw [if_pos ⟨h1, h2⟩]
  · intro h
    unfold satU32
    rw [if_neg (by omega)]
  · intro h
    unfold satU32
    rw [if_neg (by omega)]

/-- Witness for C5 (amended) at concrete in-range, overflowing and
negative timestamps. -/
theorem c5_seconds_saturation_witness :
    (keyToBytes [97] 5).drop 2 = be32 (satU32 5) ∧
    satU32 5 = (5 : Int).toNat ∧
    satU32 4294967296 = 4294967295 ∧
    satU32 (-3) = 4294967295 :=
  ⟨(c5_seconds_saturation [97] 5).1,
    (c5_seconds_saturation [97] 5).2.1 (by decide) (by decide),
    (c5_seconds_saturation [] 4294967296).2.2.1 (by decide),
    (c5_seconds_saturation [] (-3)).2.2.2 (by decide)⟩

/-! ### File-system trees and the blob store (src/core/src/store.rs)

A directory tree is modelled as an inductive type; entry names are byte
lists (the bytes of the `OsStr` name), and `read_dir` order is the order
of the children list (arbitrary — the code sorts before consuming).
-/

inductive Fs where
  | file
  | dir (children : List (List Nat × Fs))

/-- Model of `Entries::is_valid_char`: ASCII lowercase letters (a–z) or
ASCII digits — note this admits letters beyond f. -/
def isValidChar (b : Nat) : Bool := (97 ≤ b && b ≤ 122) || (48 ≤ b && b ≤ 57)

/-- A lowercase hexadecimal digit character. -/
def isLowerHex (b : Nat) : Bool := (48 ≤ b && b ≤ 57) || (97 ≤ b && b ≤ 102)

/-- Value of a single hex digit character, as accepted by the `hex` crate
(`FromHex`): digits, lowercase and uppercase letters. -/
def hexVal (c : Nat) : Option Nat :=
  if 48 ≤ c && c ≤ 57 then some (c - 48)
  else if 97 ≤ c && c ≤ 102 then some (c - 87)
  else if 65 ≤ c && c ≤ 70 then some (c - 55)
  else none

/-- Model of hex decoding a string of digit pairs into bytes
(`<[u8; 16]>::from_hex` additionally requires exactly 16 output bytes). -/
def hexDecodePairs : List Nat → Option (List Nat)
  | [] => some []
  | [_] => none
  | c1 :: c2 :: rest =>
    match hexVal c1, hexVal c2, hexDecodePairs rest with
    | some v1, some v2, some ds => some ((v1 * 16 + v2) :: ds)
    | _, _, _ => none

/-- The lowercase hex character of a nibble (`format!("{digest:x}")`). -/
def hexChar (v : Nat) : Nat := if v < 10 then v + 48 else v + 87

/-- Lowercase hex encoding of a byte sequence, two characters per byte. -/
def hexEnc : List Nat → List Nat
  | [] => []
  | b :: rest => hexChar (b / 16) :: hexChar (b % 16) :: hexEnc rest

/-- The ordering `paths.sort()` uses on the children of one directory:
`PathBuf` comparison reduces to byte-wise comparison of the names. -/
def childLe (a b : List Nat × Fs) : Prop := byteLt a.1 b.1 = true ∨ a.1 = b.1

instance : DecidableRel childLe := fun a b =>
  inferInstanceAs (Decidable (byteLt a.1 b.1 = true ∨ a.1 = b.1))

instance : IsTotal (List Nat × Fs) childLe :=
  ⟨fun a b => by
    rcases byteLt_total a.1 b.1 with h | h | h
    · exact Or.inl (Or.inr h)
    · exact Or.inl (Or.inl h)
    · exact Or.inr (Or.inl h)⟩

instance : IsTrans (List Nat × Fs) childLe :=
  ⟨fun a b c hab hbc => by
    rcases hab with hab | hab <;> rcases hbc with hbc | hbc
    · exact Or.inl (byteLt_trans _ _ _ hab hbc)
    · exact Or.inl (hbc ▸ hab)
    · exact Or.inl (hab ▸ hbc)
    · exact Or.inr (hab.trans hbc)⟩

/-- Model of `Entries::path_to_paths`: list the children of a directory
(`ExpectedDirectory` error on a file), sort them, reverse (the iterator
pops from the end, i.e. consumes in ascending order — the model returns
the ascending list), and when a shard length is supplied search the
reversed list for an invalid name: one whose length differs from the
shard length AND which contains a character outside the lowercase
alphanumeric set.  The first such path found is reported. -/
def pathToPathsM (children : List (List Nat × Fs)) (lOpt : Option Nat) :
    Except (List Nat) (List (List Nat × Fs)) :=
  match lOpt with
  | some l =>
    match ((List.insertionSort childLe children).reverse).find?
        (fun p => (p.1.length != l) && p.1.any (fun b => !isValidChar b)) with
    | some p => .error p.1
    | none => .ok ((List.insertionSort childLe children).reverse).reverse
  | none => .ok ((List.insertionSort childLe children).reverse).reverse

/-- Model of `Entries::path_to_entry`: the child must be a regular file
(`ExpectedFile` error otherwise), its name must consist of valid
characters, and must hex-decode to exactly 16 bytes (a 32-character hex
digest).  Errors carry the offending name. -/
def pathToEntryM (name : List Nat) (t : Fs) : Except (List Nat) (List Nat) :=
  match t with
  | .dir _ => .error name
  | .file =>
    if name.all isValidChar then
      if name.length = 32 then
        match hexDecodePairs name with
        | some d => .ok d
        | none => .error name
      else .error name
    else .error name

def nextLevel : Option Nat → Nat
  | none => 0
  | some k => k + 1

/-- The recursive traversal performed by `Entries::next`.  The stack-based
iterator pops a path at level `lvl`; when `lvl` equals the shard depth the
path is decoded as an entry, otherwise it is expanded by `path_to_paths`
using the shard length at index `lvl` (none below level 0, i.e. when
expanding the root) and its children are visited at level `lvl + 1`.  The
countdown `rem` (depth remaining until the entry level) makes the
recursion structural; it mirrors the iterator exactly on every run in
which no expansion error occurs (on an expansion error the iterator also
abandons the remaining sibling paths of that level, which never happens in
the error-free runs below). -/
def visitR (ppl : List Nat) :
    Nat → Option Nat → List Nat × Fs → List (Except (List Nat) (List Nat))
  | 0, _, (name, t) => [pathToEntryM name t]
  | rem + 1, lvl, (name, t) =>
    match t with
    | .file => [.error name]
    | .dir children =>
      match pathToPathsM children (lvl.bind fun k => ppl[k]?) with
      | .error n => [.error n]
      | .ok asc => asc.flatMap fun p => visitR ppl rem (some (nextLevel lvl)) p

/-- Model of `Store::entries().collect()`: the traversal starts with the
root path on the stack at level `none` and produces entries until the
stack is exhausted.  An entry is reached after `prefix_part_lengths.length
+ 1` expansions from the root. -/
def entriesM (ppl : List Nat) (root : Fs) : List (Except (List Nat) (List Nat)) :=
  visitR ppl (ppl.length + 1) none ([], root)

def nodupB : List (List Nat) → Bool
  | [] => true
  | x :: xs => !xs.contains x && nodupB xs

def isFileB : Fs → Bool
  | .file => true
  | .dir _ => false

/-- A well-formed store tree for a given shard spec, as described by the
on-disk layout (§6): at every level strictly below the shard depth the
children are nonempty directories whose names have exactly the configured
length and consist of lowercase hex characters; at the final level the
children are regular files whose 32-character lowercase-hex names extend
the concatenation of their ancestor directory names; sibling names are
distinct. -/
def wfStore : List Nat → List Nat → Fs → Bool
  | _, _, .file => false
  | [], pre, .dir cs =>
    !cs.isEmpty && nodupB (cs.map Prod.fst) &&
      cs.all fun p =>
        isFileB p.2 && (p.1.length == 32) && p.1.all isLowerHex && pre.isPrefixOf p.1
  | l :: ls, pre, .dir cs =>
    !cs.isEmpty && nodupB (cs.map Prod.fst) &&
      cs.all fun p =>
        (p.1.length == l) && p.1.all isLowerHex && wfStore ls (pre ++ p.1) p.2

/-- Whether a tree contains any regular file. -/
def hasFile : Fs → Bool
  | .file => true
  | .dir [] => false
  | .dir ((_, c) :: rest) => hasFile c || hasFile (.dir rest)

/-- Model of `Store::infer_prefix_part_lengths_rec`: a file means the
store is non-empty (its name is not recorded); a directory records its
name's length and descends into its first `read_dir` entry, an empty
directory means no file was found. -/
def inferRec : List Nat → Fs → List Nat → Bool × List Nat
  | _, .file, acc => (false, acc)
  | name, .dir [], acc => (true, acc ++ [name.length])
  | name, .dir ((n, c) :: _), acc => inferRec n c (acc ++ [name.length])

/-- Model of `Store::infer_prefix_part_lengths`: the base must be a
directory (else `ExpectedDirectory`, modelled as `none`); an empty base
yields `Ok(None)`; otherwise the recursion starts at the first child and
`Ok(None)` is returned exactly when no file was reached. -/
def inferPPL : Fs → Option (Option (List Nat))
  | .file => none
  | .dir [] => some none
  | .dir ((n, c) :: _) =>
    let r := inferRec n c []
    some (if r.1 then none else some r.2)

/-! ### Path derivation and `Store::save`

The file system is modelled as a map from paths (component lists) to file
contents; `create_dir_all` only creates directories, which the file map
does not track.  The md5 hash and the `imghdr` signature table are
external crates and enter the model as function parameters.
-/

/-- The shard components of `Store::path`: walk the hex string, slicing
off each configured prefix length in turn. -/
def chopPath : List Nat → List Nat → List (List Nat)
  | [], _ => []
  | l :: ls, s => s.take l :: chopPath ls (s.drop l)

/-- Model of `Store::path`: the base directory, the shard slices of the
digest hex string, then the full hex string as the file name. -/
def storePath (base : List (List Nat)) (ppl : List Nat) (digest : List Nat) :
    List (List Nat) :=
  base ++ chopPath ppl (hexEnc digest) ++ [hexEnc digest]

inductive Action where
  | added (path : List (List Nat)) (digest : List Nat) (imageType : Option Nat)
  | found (path : List (List Nat)) (digest : List Nat)
  deriving DecidableEq, Repr

/-- An association-list file system: paths mapped to file contents. -/
def fsContains (fs : List (List (List Nat) × List Nat)) (p : List (List Nat)) :
    Bool :=
  fs.any fun e => e.1 == p

/-- Model of `Store::save`: compute the digest and the derived path,
ensure parent directories exist, and if a file already exists at the path
return `Found` without writing or sniffing; otherwise sniff the content
type (skipped — treated as unknown — when fewer than 8 bytes are present)
and create the file.  `md5` and `sniff` stand for the external
`md5::compute` and `imghdr::from_bytes`. -/
def save (md5 : List Nat → List Nat) (sniff : List Nat → Option Nat)
    (base : List (List Nat)) (ppl : List Nat)
    (fs : List (List (List Nat) × List Nat)) (bytes : List Nat) :
    Action × List (List (List Nat) × List Nat) :=
  let digest := md5 bytes
  let path := storePath base ppl digest
  if fsContains fs path then (.found path digest, fs)
  else
    let imageType := if bytes.length < 8 then none else sniff bytes
    (.added path digest imageType, (path, bytes) :: fs)

/-- C3: saving bytes whose derived path is not yet present yields `Added`,
and immediately saving the same bytes again yields `Found` with the same
digest and the same derived path, leaving the file system untouched (the
second save performs no write). -/
theorem c3_save_idempotent (md5 : List Nat → List Nat)
    (sniff : List Nat → Option Nat) (base : List (List Nat)) (ppl : List Nat)
    (fs : List (List (List Nat) × List Nat)) (bytes : List Nat)
    (h : fsContains fs (storePath base ppl (md5 bytes)) = false) :
    (save md5 sniff base ppl fs bytes).1 =
      Action.added (storePath base ppl (md5 bytes)) (md5 bytes)
        (if bytes.length < 8 then none else sniff bytes) ∧
    (save md5 sniff base ppl (save md5 sniff base ppl fs bytes).2 bytes).1 =
      Action.found (storePath base ppl (md5 bytes)) (md5 bytes) ∧
    (save md5 sniff base ppl (save md5 sniff base ppl fs bytes).2 bytes).2 =
      (save md5 sniff base ppl fs bytes).2 := by
  have hsecond : fsContains
      ((storePath base ppl (md5 bytes), bytes) :: fs)
      (storePath base ppl (md5 bytes)) = true := by
    unfold fsContains
    simp
  refine ⟨?_, ?_, ?_⟩ <;> simp [save, h, hsecond]

/-- Witness for C3 at a concrete digest function and empty store. -/
theorem c3_save_idempotent_witness :
    (save (fun _ => List.replicate 16 0) (fun _ => none) [] [] [] []).1 =
      Action.added (storePath [] [] (List.replicate 16 0)) (List.replicate 16 0)
        none ∧
    (save (fun _ => List.replicate 16 0) (fun _ => none) [] []
        (save (fun _ => List.replicate 16 0) (fun _ => none) [] [] [] []).2 []).1 =
      Action.found (storePath [] [] (List.replicate 16 0)) (List.replicate 16 0) ∧
    (save (fun _ => List.replicate 16 0) (fun _ => none) [] []
        (save (fun _ => List.replicate 16 0) (fun _ => none) [] [] [] []).2 []).2 =
      (save (fun _ => List.replicate 16 0) (fun _ => none) [] [] [] []).2 :=
  c3_save_idempotent (fun _ => List.replicate 16 0) (fun _ => none) [] [] [] []
    (by decide)

/-! ### The download manager's shutdown path (src/service/src/manager.rs)

`Manager::close` first sends the `None` sentinel over the bounded request
channel and propagates a send failure with `?`; it then locks the join
handle slot and awaits the handle only if `take()` yields one.  The worker
(`handle_requests`) closes the receiver and returns upon consuming the
sentinel, and a send fails exactly when the receiver has been closed.
Because a successful `close` awaits the worker's completion, its
post-state has the receiver closed and the handle consumed; the model
presents one `close` call (together with the worker activity it awaits) as
an atomic step on this state.
-/

structure ManagerState where
  receiverClosed : Bool
  handle : Option Unit
  deriving Repr

/-- Model of `Manager::close`: the sentinel send fails (and the error is
returned via `?`) when the worker has already closed the receiver;
otherwise the worker consumes the sentinel and finishes, and the join
handle — if still present — is taken and awaited. -/
def closeManager (st : ManagerState) : Except Unit Unit × ManagerState :=
  if st.receiverClosed then (.error (), st)
  else
    let st1 : ManagerState := { receiverClosed := true, handle := st.handle }
    match st1.handle with
    | some _ => (.ok (), { st1 with handle := none })
    | none => (.ok (), st1)

/-- C6 counterexample: starting from a freshly constructed manager (worker
running, handle present), the first `close()` succeeds, but a second
`close()` is not an error-free no-op: its sentinel send fails because the
worker has closed the receiver, and the send error is propagated. -/
theorem c6_counterexample :
    (closeManager ⟨false, some ()⟩).1 = Except.ok () ∧
    (closeManager (closeManager ⟨false, some ()⟩).2).1 = Except.error () :=
  ⟨rfl, rfl⟩

/-- C6 (amended): after one successful `close()` the handle is consumed
and the worker is finished; a second `close()` does not await the handle
again and leaves the state unchanged, but it returns the propagated send
error rather than succeeding — the `take()` guard only protects the
await, not the sentinel send. -/
theorem c6_second_close (st : ManagerState)
    (h1 : st.receiverClosed = false) (h2 : st.handle = some ()) :
    (closeManager st).1 = Except.ok () ∧
    (closeManager st).2.receiverClosed = true ∧
    (closeManager st).2.handle = none ∧
    (closeManager (closeManager st).2).1 = Except.error () ∧
    (closeManager (closeManager st).2).2 = (closeManager st).2 := by
  obtain ⟨rc, hd⟩ := st
  simp only at h1 h2
  subst h1
  subst h2
  exact ⟨rfl, rfl, rfl, rfl, rfl⟩

/-- Witness for C6 (amended) at the freshly constructed manager state. -/
theorem c6_second_close_witness :
    (closeManager ⟨false, some ()⟩).1 = Except.ok () ∧
    (closeManager ⟨false, some ()⟩).2.receiverClosed = true ∧
    (closeManager ⟨false, some ()⟩).2.handle = none ∧
    (closeManager (closeManager ⟨false, some ()⟩).2).1 = Except.error () ∧
    (closeManager (closeManager ⟨false, some ()⟩).2).2 =
      (closeManager ⟨false, some ()⟩).2 :=
  c6_second_close ⟨false, some ()⟩ rfl rfl

/-! ### Shard-spec inference (claim C8) -/

theorem wfStore_file (ls pre : List Nat) : wfStore ls pre Fs.file = false := by
  cases ls <;> rfl

theorem inferRec_wf : ∀ (ls pre : List Nat) (t : Fs) (name acc : List Nat),
    wfStore ls pre t = true →
    inferRec name t acc = (false, acc ++ name.length :: ls)
  | [], pre, t, name, acc, h => by
    cases t with
    | file => rw [wfStore_file] at h; exact absurd h (by simp)
    | dir cs =>
      cases cs with
      | nil => simp [wfStore] at h
      | cons p rest =>
        obtain ⟨n, c⟩ := p
        have hall : isFileB c = true := by
          simp only [wfStore, Bool.and_eq_true, List.all_eq_true] at h
          exact (h.2 (n, c) (List.mem_cons_self _ _)).1.1.1
        have hc : c = Fs.file := by
          cases c with
          | file => rfl
          | dir _ => simp [isFileB] at hall
        subst hc
        show inferRec n Fs.file (acc ++ [name.length]) = (false, acc ++ [name.length])
        rfl
  | l :: ls, pre, t, name, acc, h => by
    cases t with
    | file => rw [wfStore_file] at h; exact absurd h (by simp)
    | dir cs =>
      cases cs with
      | nil => simp [wfStore] at h
      | cons p rest =>
        obtain ⟨n, c⟩ := p
        have hmem := List.mem_cons_self (n, c) rest
        have hthis : ((n.length == l) = true ∧ ∀ x ∈ n, isLowerHex x = true) ∧
            wfStore ls (pre ++ n) c = true := by
          simp only [wfStore, Bool.and_eq_true, List.all_eq_true] at h
          exact h.2 (n, c) hmem
        have hlen : n.length = l := by simpa using hthis.1.1
        have hwf := hthis.2
        show inferRec n c (acc ++ [name.length]) = (false, acc ++ name.length :: l :: ls)
        rw [inferRec_wf ls (pre ++ n) c n (acc ++ [name.length]) hwf, hlen]
        simp

theorem inferRec_noFile : ∀ (t : Fs) (name acc : List Nat),
    hasFile t = false → (inferRec name t acc).1 = true
  | .file, _, _, h => by simp [hasFile] at h
  | .dir [], _, _, _ => by simp [inferRec]
  | .dir ((n, c) :: rest), name, acc, h => by
    have hparts : hasFile c = false ∧ hasFile (Fs.dir rest) = false := by
      have heq : hasFile (Fs.dir ((n, c) :: rest)) =
          (hasFile c || hasFile (Fs.dir rest)) := by
        simp [hasFile]
      rw [heq] at h
      simpa using h
    show (inferRec n c (acc ++ [name.length])).1 = true
    exact inferRec_noFile c n (acc ++ [name.length]) hparts.1

/-- C8: for any non-empty store built with a given shard spec, inferring
the prefix part lengths from the root returns exactly that spec; and for
any store containing no files — even one containing directories — it
returns the empty result. -/
theorem c8_infer_round_trip :
    (∀ (ppl : List Nat) (root : Fs), wfStore ppl [] root = true →
      inferPPL root = some (some ppl)) ∧
    (∀ cs : List (List Nat × Fs), hasFile (Fs.dir cs) = false →
      inferPPL (Fs.dir cs) = some none) := by
  constructor
  · intro ppl root h
    cases root with
    | file => rw [wfStore_file] at h; exact absurd h (by simp)
    | dir cs =>
      cases cs with
      | nil =>
        exfalso
        cases ppl <;> simp [wfStore] at h
      | cons p rest =>
        obtain ⟨n, c⟩ := p
        cases ppl with
        | nil =>
          have hfile : isFileB c = true := by
            simp only [wfStore, Bool.and_eq_true, List.all_eq_true] at h
            exact (h.2 (n, c) (List.mem_cons_self _ _)).1.1.1
          have hc : c = Fs.file := by
            cases c with
            | file => rfl
            | dir _ => simp [isFileB] at hfile
          subst hc
          rfl
        | cons l ls =>
          have hthis : ((n.length == l) = true ∧ ∀ x ∈ n, isLowerHex x = true) ∧
              wfStore ls ([] ++ n) c = true := by
            simp only [wfStore, Bool.and_eq_true, List.all_eq_true] at h
            exact h.2 (n, c) (List.mem_cons_self _ _)
          have hlen : n.length = l := by simpa using hthis.1.1
          have hwf := hthis.2
          have hred : inferPPL (Fs.dir ((n, c) :: rest)) =
              some (if (inferRec n c []).1 then none else some (inferRec n c []).2) :=
            rfl
          rw [hred, inferRec_wf ls ([] ++ n) c n [] hwf, hlen]
          simp
  · intro cs h
    cases cs with
    | nil => rfl
    | cons p rest =>
      obtain ⟨n, c⟩ := p
      have hparts : hasFile c = false := by
        have heq : hasFile (Fs.dir ((n, c) :: rest)) =
            (hasFile c || hasFile (Fs.dir rest)) := by
          simp [hasFile]
        rw [heq] at h
        have hsplit : hasFile c = false ∧ hasFile (Fs.dir rest) = false := by
          simpa using h
        exact hsplit.1
      have hrec := inferRec_noFile c n [] hparts
      have hred : inferPPL (Fs.dir ((n, c) :: rest)) =
          some (if (inferRec n c []).1 then none else some (inferRec n c []).2) :=
        rfl
      rw [hred, hrec]
      simp

/-- The hex name of the digest of the empty byte sequence
(`d41d8cd98f00b204e9800998ecf8427e`), as character codes. -/
def exHexName : List Nat :=
  [100, 52, 49, 100, 56, 99, 100, 57, 56, 102, 48, 48, 98, 50, 48, 52,
    101, 57, 56, 48, 48, 57, 57, 56, 101, 99, 102, 56, 52, 50, 55, 101]

/-- The 16 digest bytes matching `exHexName`. -/
def exDigest : List Nat :=
  [212, 29, 140, 217, 143, 0, 178, 4, 233, 128, 9, 152, 236, 248, 66, 126]

/-- Witness for C8: a one-level store built with spec `[1]` infers `[1]`,
and a store with directories but no files infers nothing. -/
theorem c8_infer_round_trip_witness :
    inferPPL (Fs.dir [([100], Fs.dir [(exHexName, Fs.file)])]) = some (some [1]) ∧
    inferPPL (Fs.dir [([97], Fs.dir [])]) = some none :=
  ⟨c8_infer_round_trip.1 [1] (Fs.dir [([100], Fs.dir [(exHexName, Fs.file)])])
      (by decide),
    c8_infer_round_trip.2 [([97], Fs.dir [])] (by simp [hasFile])⟩

/-! ### Enumeration order on well-formed stores (claim C9) -/

theorem isValidChar_of_isLowerHex {b : Nat} (h : isLowerHex b = true) :
    isValidChar b = true := by
  simp only [isLowerHex, Bool.or_eq_true, Bool.and_eq_true, decide_eq_true_eq] at h
  simp only [isValidChar, Bool.or_eq_true, Bool.and_eq_true, decide_eq_true_eq]
  omega

theorem hexVal_hexChar {c : Nat} (h : isLowerHex c = true) :
    ∃ v, hexVal c = some v ∧ v < 16 ∧ hexChar v = c := by
  simp only [isLowerHex, Bool.or_eq_true, Bool.and_eq_true, decide_eq_true_eq] at h
  rcases h with ⟨h1, h2⟩ | ⟨h1, h2⟩
  · refine ⟨c - 48, ?_, by omega, ?_⟩
    · unfold hexVal
      rw [if_pos (by simp only [Bool.and_eq_true, decide_eq_true_eq]; omega)]
    · unfold hexChar
      rw [if_pos (by omega)]
      omega
  · refine ⟨c - 87, ?_, by omega, ?_⟩
    · unfold hexVal
      rw [if_neg (by simp only [Bool.and_eq_true, decide_eq_true_eq]; omega),
        if_pos (by simp only [Bool.and_eq_true, decide_eq_true_eq]; omega)]
    · unfold hexChar
      rw [if_neg (by omega)]
      omega

theorem hexDecodePairs_roundtrip : ∀ n : List Nat,
    (∀ c ∈ n, isLowerHex c = true) → n.length % 2 = 0 →
    ∃ d, hexDecodePairs n = some d ∧ hexEnc d = n ∧ 2 * d.length = n.length
  | [], _, _ => ⟨[], rfl, rfl, rfl⟩
  | [_], _, hl => by simp at hl
  | c1 :: c2 :: rest, h, hl => by
    obtain ⟨v1, hv1, hb1, hc1⟩ := hexVal_hexChar (h c1 (by simp))
    obtain ⟨v2, hv2, hb2, hc2⟩ := hexVal_hexChar (h c2 (by simp))
    have hrl : rest.length % 2 = 0 := by
      simp only [List.length_cons] at hl
      omega
    obtain ⟨d, hd, he, hlen⟩ :=
      hexDecodePairs_roundtrip rest (fun c hc => h c (by simp [hc])) hrl
    refine ⟨(v1 * 16 + v2) :: d, ?_, ?_, ?_⟩
    · unfold hexDecodePairs
      rw [hv1, hv2, hd]
    · show hexEnc ((v1 * 16 + v2) :: d) = c1 :: c2 :: rest
      unfold hexEnc
      have hdiv : (v1 * 16 + v2) / 16 = v1 := by omega
      have hmod : (v1 * 16 + v2) % 16 = v2 := by omega
      rw [hdiv, hmod, hc1, hc2, he]
    · simp only [List.length_cons]
      omega

theorem nodupB_nodup : ∀ l : List (List Nat), nodupB l = true → l.Nodup
  | [], _ => List.nodup_nil
  | x :: xs, h => by
    have h' : xs.contains x = false ∧ nodupB xs = true := by
      simpa [nodupB, Bool.and_eq_true] using h
    refine List.nodup_cons.mpr ⟨?_, nodupB_nodup xs h'.2⟩
    intro hmem
    have hc : xs.contains x = true := List.elem_eq_true_of_mem hmem
    rw [hc] at h'
    exact absurd h'.1 (by simp)

theorem pathToPathsM_ok (cs : List (List Nat × Fs)) (lOpt : Option Nat)
    (h : ∀ p ∈ cs, ∀ c ∈ p.1, isLowerHex c = true) :
    pathToPathsM cs lOpt = .ok (List.insertionSort childLe cs) := by
  cases lOpt with
  | none =>
    show Except.ok ((List.insertionSort childLe cs).reverse).reverse =
      Except.ok (List.insertionSort childLe cs)
    rw [List.reverse_reverse]
  | some l =>
    have hfind : ((List.insertionSort childLe cs).reverse.find?
        fun p => (p.1.length != l) && p.1.any fun b => !isValidChar b) = none := by
      rw [List.find?_eq_none]
      intro p hp
      have hpcs : p ∈ cs := by
        rw [List.mem_reverse] at hp
        exact (List.mem_insertionSort childLe).mp hp
      have hany : (p.1.any fun b => !isValidChar b) = false := by
        rw [List.any_eq_false]
        intro b hb
        simp [isValidChar_of_isLowerHex (h p hpcs b hb)]
      simp [hany]
    show (match ((List.insertionSort childLe cs).reverse).find?
        (fun p => (p.1.length != l) && p.1.any fun b => !isValidChar b) with
      | some p => Except.error p.1
      | none => Except.ok ((List.insertionSort childLe cs).reverse).reverse) =
      Except.ok (List.insertionSort childLe cs)
    rw [hfind, List.reverse_reverse]

theorem insertionSort_names_pairwise (cs : List (List Nat × Fs))
    (hnodup : (cs.map Prod.fst).Nodup) :
    List.Pairwise (fun p q : List Nat × Fs => byteLt p.1 q.1 = true)
      (List.insertionSort childLe cs) := by
  have hsorted : List.Pairwise childLe (List.insertionSort childLe cs) :=
    List.sorted_insertionSort childLe cs
  have hperm : (List.insertionSort childLe cs).Perm cs :=
    List.perm_insertionSort childLe cs
  have hnodup2 : ((List.insertionSort childLe cs).map Prod.fst).Nodup :=
    (List.Perm.nodup_iff (List.Perm.map Prod.fst hperm)).mpr hnodup
  have hne : List.Pairwise (fun p q : List Nat × Fs => p.1 ≠ q.1)
      (List.insertionSort childLe cs) := List.pairwise_map.mp hnodup2
  refine (hsorted.and hne).imp ?_
  intro p q hpq
  rcases hpq.1 with hlt | heq
  · exact hlt
  · exact absurd heq hpq.2

theorem flatMap_singleton_eq_map {α β : Type} (f : α → β) :
    ∀ l : List α, (l.flatMap fun x => [f x]) = l.map f
  | [] => rfl
  | a :: l => by
    rw [List.flatMap_cons, flatMap_singleton_eq_map f l]
    rfl

theorem pathToEntryM_wf {name : List Nat} (h32 : name.length = 32)
    (hhex : ∀ c ∈ name, isLowerHex c = true) :
    ∃ d, pathToEntryM name Fs.file = .ok d ∧ hexEnc d = name := by
  obtain ⟨d, hd, he, _⟩ := hexDecodePairs_roundtrip name hhex (by omega)
  refine ⟨d, ?_, he⟩
  unfold pathToEntryM
  have hvalid : name.all isValidChar = true := by
    rw [List.all_eq_true]
    intro c hc
    exact isValidChar_of_isLowerHex (hhex c hc)
  rw [if_pos hvalid, if_pos h32, hd]

theorem wfStore_nil_parts {pre : List Nat} {cs : List (List Nat × Fs)}
    (h : wfStore [] pre (Fs.dir cs) = true) :
    cs ≠ [] ∧ (cs.map Prod.fst).Nodup ∧
      ∀ p ∈ cs, p.2 = Fs.file ∧ p.1.length = 32 ∧
        (∀ c ∈ p.1, isLowerHex c = true) ∧ pre <+: p.1 := by
  simp only [wfStore, Bool.and_eq_true, List.all_eq_true, beq_iff_eq,
    Bool.not_eq_true', List.isPrefixOf_iff_prefix] at h
  obtain ⟨⟨hne, hnodup⟩, hall⟩ := h
  have hne2 : cs ≠ [] := by
    intro he
    subst he
    simp at hne
  refine ⟨hne2, nodupB_nodup _ hnodup, ?_⟩
  intro p hp
  have hprops := hall p hp
  have hfile : p.2 = Fs.file := by
    have := hprops.1.1.1
    cases hval : p.2 with
    | file => rfl
    | dir cs2 => rw [hval] at this; simp [isFileB] at this
  exact ⟨hfile, hprops.1.1.2, hprops.1.2, hprops.2⟩

theorem wfStore_cons_parts {l : Nat} {ls pre : List Nat}
    {cs : List (List Nat × Fs)}
    (h : wfStore (l :: ls) pre (Fs.dir cs) = true) :
    cs ≠ [] ∧ (cs.map Prod.fst).Nodup ∧
      ∀ p ∈ cs, p.1.length = l ∧ (∀ c ∈ p.1, isLowerHex c = true) ∧
        wfStore ls (pre ++ p.1) p.2 = true := by
  simp only [wfStore, Bool.and_eq_true, List.all_eq_true, beq_iff_eq,
    Bool.not_eq_true'] at h
  obtain ⟨⟨hne, hnodup⟩, hall⟩ := h
  have hne2 : cs ≠ [] := by
    intro he
    subst he
    simp at hne
  refine ⟨hne2, nodupB_nodup _ hnodup, ?_⟩
  intro p hp
  have hprops := hall p hp
  exact ⟨hprops.1.1, hprops.1.2, hprops.2⟩

theorem insertionSort_ne_nil {cs : List (List Nat × Fs)} (h : cs ≠ []) :
    List.insertionSort childLe cs ≠ [] := by
  intro he
  have hlen := List.length_insertionSort childLe cs
  rw [he] at hlen
  cases cs with
  | nil => exact h rfl
  | cons a l => simp at hlen

theorem visitR_wf (ppl : List Nat) :
    ∀ (ls pre : List Nat) (t : Fs) (name : List Nat) (lvl : Option Nat),
    wfStore ls pre t = true →
    ∃ ds, visitR ppl (ls.length + 1) lvl (name, t) = ds.map Except.ok ∧
      ds ≠ [] ∧
      (∀ d ∈ ds, (hexEnc d).length = 32 ∧ pre <+: hexEnc d) ∧
      List.Pairwise (fun d d' => byteLt (hexEnc d) (hexEnc d') = true) ds := by
  intro ls
  induction ls with
  | nil =>
    intro pre t name lvl h
    cases t with
    | file => rw [wfStore_file] at h; exact absurd h (by simp)
    | dir cs =>
      obtain ⟨hne, hnodup, hall⟩ := wfStore_nil_parts h
      have hok : pathToPathsM cs (lvl.bind fun k => ppl[k]?) =
          .ok (List.insertionSort childLe cs) :=
        pathToPathsM_ok cs _ (fun p hp => (hall p hp).2.2.1)
      have key2 : ∀ xs : List (List Nat × Fs),
          (∀ p ∈ xs, p.2 = Fs.file ∧ p.1.length = 32 ∧
            (∀ c ∈ p.1, isLowerHex c = true)) →
          ∃ ds : List (List Nat),
            (xs.flatMap fun p => visitR ppl 0 (some (nextLevel lvl)) p) =
              ds.map Except.ok ∧
            ds.map hexEnc = xs.map Prod.fst := by
        intro xs
        induction xs with
        | nil => exact fun _ => ⟨[], rfl, rfl⟩
        | cons p xs ihx =>
          intro hp
          obtain ⟨hfile, h32, hhex⟩ := hp p (List.mem_cons_self p xs)
          obtain ⟨d, hd, he⟩ := pathToEntryM_wf h32 hhex
          obtain ⟨ds, hds, hmap⟩ := ihx (fun q hq => hp q (List.mem_cons_of_mem p hq))
          refine ⟨d :: ds, ?_, ?_⟩
          · rw [List.flatMap_cons, hds]
            have hv : visitR ppl 0 (some (nextLevel lvl)) p = [Except.ok d] := by
              show [pathToEntryM p.1 p.2] = [Except.ok d]
              rw [hfile, hd]
            rw [hv]
            rfl
          · simp [hmap, he]
      obtain ⟨ds, hds, hmap⟩ := key2 (List.insertionSort childLe cs)
        (fun p hp =>
          have hprops := hall p ((List.mem_insertionSort childLe).mp hp)
          ⟨hprops.1, hprops.2.1, hprops.2.2.1⟩)
      have hanames : List.Pairwise
          (fun a b : List Nat => byteLt a b = true)
          ((List.insertionSort childLe cs).map Prod.fst) :=
        List.pairwise_map.mpr (insertionSort_names_pairwise cs hnodup)
      refine ⟨ds, ?_, ?_, ?_, ?_⟩
      · show visitR ppl (0 + 1) lvl (name, Fs.dir cs) = ds.map Except.ok
        have hred : visitR ppl (0 + 1) lvl (name, Fs.dir cs) =
            match pathToPathsM cs (lvl.bind fun k => ppl[k]?) with
            | .error n => [.error n]
            | .ok asc => asc.flatMap fun p => visitR ppl 0 (some (nextLevel lvl)) p :=
          rfl
        rw [hred, hok]
        exact hds
      · intro he
        rw [he] at hmap
        have : (List.insertionSort childLe cs).map Prod.fst = [] := hmap.symm ▸ rfl
        have hnil : List.insertionSort childLe cs = [] := by
          cases hv : List.insertionSort childLe cs with
          | nil => rfl
          | cons a l => rw [hv] at this; simp at this
        exact insertionSort_ne_nil hne hnil
      · intro d hd
        have hmem : hexEnc d ∈ (List.insertionSort childLe cs).map Prod.fst := by
          rw [← hmap]
          exact List.mem_map_of_mem hexEnc hd
        obtain ⟨p, hp, hpe⟩ := List.mem_map.mp hmem
        have hprops := hall p ((List.mem_insertionSort childLe).mp hp)
        rw [← hpe]
        exact ⟨hprops.2.1, hprops.2.2.2⟩
      · rw [← hmap] at hanames
        exact List.pairwise_map.mp hanames
  | cons l ls ih =>
    intro pre t name lvl h
    cases t with
    | file => rw [wfStore_file] at h; exact absurd h (by simp)
    | dir cs =>
      obtain ⟨hne, hnodup, hall⟩ := wfStore_cons_parts h
      have hok : pathToPathsM cs (lvl.bind fun k => ppl[k]?) =
          .ok (List.insertionSort childLe cs) :=
        pathToPathsM_ok cs _ (fun p hp => (hall p hp).2.1)
      have key : ∀ xs : List (List Nat × Fs),
          (∀ p ∈ xs, p.1.length = l ∧ wfStore ls (pre ++ p.1) p.2 = true) →
          List.Pairwise (fun p q : List Nat × Fs => byteLt p.1 q.1 = true) xs →
          ∃ ds : List (List Nat),
            (xs.flatMap fun p =>
              visitR ppl (ls.length + 1) (some (nextLevel lvl)) p) =
              ds.map Except.ok ∧
            (xs = [] ∨ ds ≠ []) ∧
            (∀ d ∈ ds, (hexEnc d).length = 32 ∧
              ∃ p ∈ xs, (pre ++ p.1) <+: hexEnc d) ∧
            List.Pairwise (fun d d' => byteLt (hexEnc d) (hexEnc d') = true) ds := by
        intro xs
        induction xs with
        | nil => exact fun _ _ => ⟨[], rfl, Or.inl rfl, by simp, List.Pairwise.nil⟩
        | cons p xs ihx =>
          intro hprops hpw
          obtain ⟨dsp, hvp, hnep, hmemp, hpwp⟩ :=
            ih (pre ++ p.1) p.2 p.1 (some (nextLevel lvl))
              (hprops p (List.mem_cons_self p xs)).2
          obtain ⟨ds', hv', hne', hmem', hpw'⟩ :=
            ihx (fun q hq => hprops q (List.mem_cons_of_mem p hq)) hpw.of_cons
          refine ⟨dsp ++ ds', ?_, Or.inr (by simp [hnep]), ?_, ?_⟩
          · rw [List.flatMap_cons, hvp, hv', List.map_append]
          · intro d hd
            rcases List.mem_append.mp hd with hd | hd
            · exact ⟨(hmemp d hd).1, p, List.mem_cons_self p xs, (hmemp d hd).2⟩
            · obtain ⟨hl32, q, hq, hpre⟩ := hmem' d hd
              exact ⟨hl32, q, List.mem_cons_of_mem p hq, hpre⟩
          · rw [List.pairwise_append]
            refine ⟨hpwp, hpw', ?_⟩
            intro d hd d' hd'
            obtain ⟨hl32, hpre⟩ := hmemp d hd
            obtain ⟨hl32', q, hq, hpre'⟩ := hmem' d' hd'
            have hlt : byteLt p.1 q.1 = true := List.rel_of_pairwise_cons hpw hq
            obtain ⟨a, ha⟩ := hpre
            obtain ⟨b, hb⟩ := hpre'
            have hlp : p.1.length = l := (hprops p (List.mem_cons_self p xs)).1
            have hlq : q.1.length = l :=
              (hprops q (List.mem_cons_of_mem p hq)).1
            rw [← ha, ← hb, List.append_assoc, List.append_assoc,
              byteLt_append_same]
            exact byteLt_extend_of_eq_length p.1 q.1 a b (by rw [hlp, hlq]) hlt
      obtain ⟨ds, hds, hne2, hmem2, hpw2⟩ :=
        key (List.insertionSort childLe cs)
          (fun p hp =>
            have hprops := hall p ((List.mem_insertionSort childLe).mp hp)
            ⟨hprops.1, hprops.2.2⟩)
          (insertionSort_names_pairwise cs hnodup)
      refine ⟨ds, ?_, ?_, ?_, hpw2⟩
      · show visitR ppl (ls.length + 1 + 1) lvl (name, Fs.dir cs) = ds.map Except.ok
        have hred : visitR ppl (ls.length + 1 + 1) lvl (name, Fs.dir cs) =
            match pathToPathsM cs (lvl.bind fun k => ppl[k]?) with
            | .error n => [.error n]
            | .ok asc => asc.flatMap fun p =>
                visitR ppl (ls.length + 1) (some (nextLevel lvl)) p :=
          rfl
        rw [hred, hok]
        exact hds
      · rcases hne2 with hnil | hok2
        · exact absurd hnil (insertionSort_ne_nil hne)
        · exact hok2
      · intro d hd
        obtain ⟨hl32, q, hq, hpre⟩ := hmem2 d hd
        refine ⟨hl32, ?_⟩
        exact (List.prefix_append pre q.1).trans hpre

/-- C9: enumerating a static, well-formed store yields no errors and its
entries appear in strictly ascending lexicographic order of their digest
hex strings; enumeration is a pure function of the tree, so re-running it
on the unchanged store yields the identical sequence. -/
theorem c9_enumeration_order (ppl : List Nat) (root : Fs)
    (h : wfStore ppl [] root = true) :
    ∃ ds : List (List Nat), entriesM ppl root = ds.map Except.ok ∧
      List.Pairwise (fun d d' => byteLt (hexEnc d) (hexEnc d') = true) ds ∧
      entriesM ppl root = entriesM ppl root := by
  obtain ⟨ds, hv, _, _, hpw⟩ := visitR_wf ppl ppl [] root [] none h
  exact ⟨ds, hv, hpw, rfl⟩

/-- Witness for C9 on a two-entry store with shard spec `[1]` (children
listed out of sorted order). -/
theorem c9_enumeration_order_witness :
    ∃ ds : List (List Nat),
      entriesM [1] (Fs.dir [([100], Fs.dir [(exHexName, Fs.file)]),
        ([97], Fs.dir [(([97] ++ List.replicate 31 48 : List Nat), Fs.file)])]) =
        ds.map Except.ok ∧
      List.Pairwise (fun d d' => byteLt (hexEnc d) (hexEnc d') = true) ds ∧
      entriesM [1] (Fs.dir [([100], Fs.dir [(exHexName, Fs.file)]),
        ([97], Fs.dir [(([97] ++ List.replicate 31 48 : List Nat), Fs.file)])]) =
        entriesM [1] (Fs.dir [([100], Fs.dir [(exHexName, Fs.file)]),
          ([97], Fs.dir [(([97] ++ List.replicate 31 48 : List Nat), Fs.file)])]) :=
  c9_enumeration_order [1]
    (Fs.dir [([100], Fs.dir [(exHexName, Fs.file)]),
      ([97], Fs.dir [(([97] ++ List.replicate 31 48 : List Nat), Fs.file)])])
    (by decide)

/-- C1 counterexample: with shard spec `[2]`, a store whose only top-level
child directory is named `abc` — three characters, not two — enumerates
without any integrity error (the single item is an `Ok` entry): the root
listing is expanded with no length check, and at the next level the check
compares the file name against the length for the wrong level but only
flags names that also contain a character outside `[a-z0-9]`. -/
theorem c1_counterexample :
    entriesM [2] (Fs.dir [([97, 98, 99], Fs.dir [(exHexName, Fs.file)])]) =
      [Except.ok exDigest] ∧
    ([97, 98, 99] : List Nat).length ≠ 2 ∧
    ([97, 98, 99] : List Nat).all isValidChar = true :=
  ⟨rfl, by decide, by decide⟩

/-- C1 (amended): a directory listing checked against a defined shard
length reports an integrity error (naming an offending child) if and only
if some child's name BOTH differs from that length AND contains a
character outside the lowercase-ASCII-alphanumeric set; a listing
expanded with no shard length defined is never flagged. -/
theorem c1_name_check (children : List (List Nat × Fs)) (l : Nat) :
    ((∃ n, pathToPathsM children (some l) = .error n) ↔
      ∃ p ∈ children, p.1.length ≠ l ∧ ∃ b ∈ p.1, isValidChar b = false) ∧
    ∀ n, pathToPathsM children none ≠ .error n := by
  have hred : pathToPathsM children (some l) =
      match ((List.insertionSort childLe children).reverse).find?
          (fun p => (p.1.length != l) && p.1.any fun b => !isValidChar b) with
      | some p => Except.error p.1
      | none => Except.ok (((List.insertionSort childLe children).reverse).reverse) :=
    rfl
  constructor
  · constructor
    · rintro ⟨n, hn⟩
      rw [hred] at hn
      cases hf : ((List.insertionSort childLe children).reverse).find?
          (fun p => (p.1.length != l) && p.1.any fun b => !isValidChar b) with
      | none => rw [hf] at hn; exact absurd hn (by simp)
      | some p =>
        have hpred := List.find?_some hf
        have hpmem : p ∈ children := by
          have := List.mem_of_find?_eq_some hf
          rw [List.mem_reverse] at this
          exact (List.mem_insertionSort childLe).mp this
        simp only [Bool.and_eq_true, bne_iff_ne, List.any_eq_true,
          Bool.not_eq_true'] at hpred
        exact ⟨p, hpmem, hpred.1, hpred.2⟩
    · rintro ⟨p, hp, hlen, b, hb, hbad⟩
      cases hf : ((List.insertionSort childLe children).reverse).find?
          (fun p => (p.1.length != l) && p.1.any fun b => !isValidChar b) with
      | some q => exact ⟨q.1, by rw [hred, hf]⟩
      | none =>
        exfalso
        have hnone := List.find?_eq_none.mp hf p (by
          rw [List.mem_reverse]
          exact (List.mem_insertionSort childLe).mpr hp)
        apply hnone
        simp only [Bool.and_eq_true, bne_iff_ne, List.any_eq_true,
          Bool.not_eq_true']
        exact ⟨hlen, b, hb, hbad⟩
  · intro n
    show Except.ok (((List.insertionSort childLe children).reverse).reverse) ≠
      Except.error n
    simp

/-- Witness for C1 (amended): a child named `...` (wrong length AND bad
characters) is reported. -/
theorem c1_name_check_witness :
    ∃ n, pathToPathsM [([46, 46, 46], Fs.file)] (some 2) = Except.error n :=
  (c1_name_check [([46, 46, 46], Fs.file)] 2).1.mpr (by decide)

end ImageScraper
